import Mathlib

/-!
Emergency-room triage queue (`2560FinalCodeGit.cpp`).

A shallow embedding of the C++ program and a verification of its triage
queue.  The program keeps

* a global `std::map<string,int> injuryList` (injury name to severity),
* an `ERQueueHandler` holding a
  `std::priority_queue<ERPatient, vector<ERPatient>, CompareERPatients>`
  and a `vector<pair<ERPatient, time_t>>` of treated patients,
* and writes its reports to `cout`.

Modelling choices.

* `time_t` and `int` are `Int`; the handler only compares them, and `main`
  only subtracts small constants from the start time.
* `time(nullptr)` is an input of `treatNextInLine` (the clock reading).
* `std::map` is a list of pairs kept in ascending key order; `operator[]`
  inserts a value-initialised entry (severity `0`) when the key is absent.
* `std::priority_queue` is its underlying vector together with the binary
  heap algorithms `push_heap` / `pop_heap` (hole-based sift-up, and
  sift-down to a leaf followed by sift-up) as shipped in `stl_heap.h`.
* `cout` is a list of printed lines; a line carries the values that are
  printed, not their textual rendering (`strftime`, `setprecision`).
* `this_thread::sleep_for` has no effect on the state and is omitted.
* `cin` is the sequence of values that the successive extractions
  (`cin >> choice`, `cin.ignore(); getline(cin, name)`, `cin >> injuryChoice`)
  obtain.  When it is exhausted, or the next value is not of the requested
  kind, the extraction fails; the prompt loops of the program then never
  terminate, so the prompt has no result.
* Each call of `time(nullptr)` in `main` reads the next value of a clock
  stream.
-/

namespace ERQueue

/-! ## `std::map<string, int>` -/

/-- A `std::map<string,int>`: key/value pairs in ascending key order. -/
abbrev StdMap := List (String × Int)

/-- Key order of the map: `std::less<string>`, lexicographic on characters. -/
def keyLess (a b : String) : Bool := decide (a.data < b.data)

/-- Read-only lookup (`map::find`), used to state properties of the table. -/
def mapFind (m : StdMap) (k : String) : Option Int := m.lookup k

/-- Insertion `map::insert`: keeps an existing entry, otherwise inserts the pair at its
place in key order.  Used to build the table from its initializer list. -/
def mapInsert : StdMap → String × Int → StdMap
  | [], kv => [kv]
  | (k', v) :: rest, kv =>
    if kv.1 = k' then (k', v) :: rest
    else if keyLess kv.1 k' then kv :: (k', v) :: rest
    else (k', v) :: mapInsert rest kv

/-- Subscript `map::operator[]`: returns the mapped value; when the key is absent it first
inserts the key with a value-initialised `int` (that is `0`).  The result is the
map after the call together with the value read. -/
def mapSubscript : StdMap → String → StdMap × Int
  | [], k => ([(k, 0)], 0)
  | (k', v) :: rest, k =>
    if k = k' then ((k', v) :: rest, v)
    else if keyLess k k' then ((k, 0) :: (k', v) :: rest, 0)
    else ((k', v) :: (mapSubscript rest k).1, (mapSubscript rest k).2)

/-- The initializer list of `injuryList`, in source order. -/
def injuryListInit : List (String × Int) :=
  [ ("Gunshot Wound", 1),
    ("Heart Attack", 1),
    ("Stroke", 1),
    ("Severe Allergic Reaction", 1),
    ("Traumatic Brain Injury", 1),
    ("Severe Burn", 1),
    ("Sepsis", 1),
    ("Major Bleeding", 2),
    ("Pneumothorax (Collapsed Lung)", 2),
    ("Compound Fracture", 2),
    ("Severe Asthma Attack", 2),
    ("Severe Dehydration", 2),
    ("Appendicitis", 3),
    ("Kidney Stone", 3),
    ("Severe Migraine", 3),
    ("Broken Bone", 3),
    ("Laceration Requiring Stitches", 3),
    ("High Fever (Adult)", 4),
    ("Mild Concussion", 4),
    ("Sprained Ankle", 4),
    ("Dislocated Shoulder", 4),
    ("Nosebleed (Severe)", 4),
    ("Ear Infection", 5),
    ("Minor Cut", 5),
    ("Skin Rash", 5),
    ("Mild Food Poisoning", 5),
    ("Mild Allergic Reaction", 5),
    ("Cold or Flu", 5),
    ("Minor Burn", 5),
    ("Muscle Strain", 5) ]

/-- The global `injuryList` as constructed before `main` runs. -/
def injuryList : StdMap := injuryListInit.foldl mapInsert []

/-! ## Patients and their comparator -/

/-- The `struct ERPatient`. -/
structure ERPatient where
  fullName : String
  injuryType : String
  conditionSeverity : Int
  checkInTime : Int
deriving DecidableEq, Repr

instance : Inhabited ERPatient := ⟨⟨"", "", 0, 0⟩⟩

/-- The call operator of `struct CompareERPatients`. -/
def CompareERPatients (p1 p2 : ERPatient) : Bool :=
  if p1.conditionSeverity = p2.conditionSeverity then
    decide (p1.checkInTime > p2.checkInTime)
  else
    decide (p1.conditionSeverity > p2.conditionSeverity)

/-! ## Binary heap algorithms of the standard library -/

section Heap

variable {α : Type} [Inhabited α]

/-- Element read `*(first + i)`. -/
def deref (first : List α) (i : Nat) : α := first.getD i default

/-- The loop of `std::__push_heap(first, holeIndex, topIndex, value, comp)`: while the
hole is below `topIndex` and its parent compares less than `value`, the parent
moves into the hole; finally `value` is stored in the hole.  The first
argument bounds the number of iterations (`holeIndex` always suffices). -/
def pushHeapLoop (comp : α → α → Bool) : Nat → List α → Nat → Nat → α → List α
  | 0, first, holeIndex, _, value => first.set holeIndex value
  | fuel + 1, first, holeIndex, topIndex, value =>
    let parent := (holeIndex - 1) / 2
    if holeIndex > topIndex ∧ comp (deref first parent) value = true then
      pushHeapLoop comp fuel (first.set holeIndex (deref first parent)) parent topIndex value
    else
      first.set holeIndex value

/-- The algorithm `std::push_heap(first, last, comp)` on the whole vector: the last element
is sifted up from index `len - 1`. -/
def push_heap (comp : α → α → Bool) (first : List α) : List α :=
  let value := deref first (first.length - 1)
  pushHeapLoop comp (first.length - 1) first (first.length - 1) 0 value

/-- The `while (secondChild < (len - 1) / 2)` loop of `std::__adjust_heap`: the hole
moves to the child that does not compare less than its sibling.  Returns the
vector, `holeIndex` and `secondChild` at loop exit. -/
def adjustHeapLoop (comp : α → α → Bool) :
    Nat → List α → Nat → Nat → Nat → List α × Nat × Nat
  | 0, first, holeIndex, secondChild, _ => (first, holeIndex, secondChild)
  | fuel + 1, first, holeIndex, secondChild, len =>
    if secondChild < (len - 1) / 2 then
      let secondChild1 := 2 * (secondChild + 1)
      let secondChild2 :=
        if comp (deref first secondChild1) (deref first (secondChild1 - 1)) = true then
          secondChild1 - 1
        else secondChild1
      adjustHeapLoop comp fuel (first.set holeIndex (deref first secondChild2))
        secondChild2 secondChild2 len
    else (first, holeIndex, secondChild)

/-- The algorithm `std::__adjust_heap(first, holeIndex, len, value, comp)`, for `len ≥ 1`:
the descent loop, the step for a last inner node with a single child (`len`
even), then `__push_heap` from the reached hole back up to `topIndex`. -/
def adjust_heap (comp : α → α → Bool) (first : List α) (holeIndex len : Nat) (value : α) :
    List α :=
  let topIndex := holeIndex
  let st := adjustHeapLoop comp len first holeIndex holeIndex len
  let st2 : List α × Nat :=
    if len % 2 = 0 ∧ st.2.2 = (len - 2) / 2 then
      let secondChild := 2 * (st.2.2 + 1)
      (st.1.set st.2.1 (deref st.1 (secondChild - 1)), secondChild - 1)
    else (st.1, st.2.1)
  pushHeapLoop comp st2.2 st2.1 st2.2 topIndex value

/-- The algorithm `std::pop_heap(first, last, comp)` on the whole vector: when it has more
than one element, the last element is saved as `value`, the first element is
stored in the last slot and the range without the last slot is repaired by
`__adjust_heap` at hole `0`. -/
def pop_heap (comp : α → α → Bool) (first : List α) : List α :=
  if first.length > 1 then
    let last := first.length - 1
    let value := deref first last
    adjust_heap comp (first.set last (deref first 0)) 0 last value
  else first

/-! ## `std::priority_queue` over a vector -/

/-- Member `priority_queue::push`: `c.push_back(x); push_heap(c.begin(), c.end(), comp)`. -/
def pqPush (comp : α → α → Bool) (c : List α) (x : α) : List α :=
  push_heap comp (c ++ [x])

/-- Member `priority_queue::top`: `c.front()`; `none` on an empty container. -/
def pqTop (c : List α) : Option α := c.head?

/-- Member `priority_queue::pop`: `pop_heap(c.begin(), c.end(), comp); c.pop_back()`. -/
def pqPop (comp : α → α → Bool) (c : List α) : List α :=
  (pop_heap comp c).dropLast

/-- Member `priority_queue::empty`. -/
def pqEmpty (c : List α) : Bool := c.isEmpty

/-- Member `priority_queue::size`. -/
def pqSize (c : List α) : Nat := c.length

end Heap

/-! ## The handler -/

/-- The data members of `class ERQueueHandler`. -/
structure ERQueueHandler where
  patientQueue : List ERPatient
  treatedPatients : List (ERPatient × Int)
deriving DecidableEq

/-- A line written to `cout`, with the values it shows. -/
inductive Line where
  | addedPatient (p : ERPatient)
  | queueEmptyNoOneLeft
  | treatingPatient (p : ERPatient)
  | queueEmptyAllGood
  | queueHeader
  | queuePatient (p : ERPatient)
  | queueFooter
  | noTreatedYet
  | logHeader
  | logPatient (p : ERPatient) (treatmentTime : Int)
  | logFooter
  | simulationStarting
  | simulationComplete
  | askAdmit
  | invalidYesNo
  | askName
  | menuHeader
  | menuEntry (count : Nat) (injury : String)
  | askInjuryNumber
  | invalidInjuryNumber (size : Nat)
deriving DecidableEq

/-- The program state the handler's member functions act on: the global table,
the handler object and the output written so far. -/
structure World where
  injuryList : StdMap
  erSystem : ERQueueHandler
  cout : List Line
deriving DecidableEq

/-- Member `ERQueueHandler::admitNewPatient`. -/
def admitNewPatient (w : World) (name injury : String) (checkIn : Int) : World :=
  let r := mapSubscript w.injuryList injury
  let severity := r.2
  let newPatient : ERPatient := ⟨name, injury, severity, checkIn⟩
  { injuryList := r.1
    erSystem := { w.erSystem with
      patientQueue := pqPush CompareERPatients w.erSystem.patientQueue newPatient }
    cout := w.cout ++ [Line.addedPatient newPatient] }

/-- Member `ERQueueHandler::treatNextInLine`; `treatmentTime` is the value of `time(nullptr)`. -/
def treatNextInLine (w : World) (treatmentTime : Int) : World :=
  if pqEmpty w.erSystem.patientQueue = true then
    { w with cout := w.cout ++ [Line.queueEmptyNoOneLeft] }
  else
    match pqTop w.erSystem.patientQueue with
    | none => w
    | some nextPatient =>
      { w with
        erSystem :=
          { patientQueue := pqPop CompareERPatients w.erSystem.patientQueue
            treatedPatients := w.erSystem.treatedPatients ++ [(nextPatient, treatmentTime)] }
        cout := w.cout ++ [Line.treatingPatient nextPatient] }

/-- The `while (!tempQueue.empty())` loop of `showQueueStatus`, on the local copy
`tempQueue`; returns the patients printed, in order.  The first argument
bounds the number of iterations (the size of `tempQueue` suffices). -/
def drainTempQueue : Nat → List ERPatient → List ERPatient
  | 0, _ => []
  | fuel + 1, tempQueue =>
    if pqEmpty tempQueue = true then []
    else
      match pqTop tempQueue with
      | none => []
      | some current => current :: drainTempQueue fuel (pqPop CompareERPatients tempQueue)

/-- Member `ERQueueHandler::showQueueStatus` (a `const` member: only `cout` changes). -/
def showQueueStatus (w : World) : World :=
  if pqEmpty w.erSystem.patientQueue = true then
    { w with cout := w.cout ++ [Line.queueEmptyAllGood] }
  else
    let tempQueue := w.erSystem.patientQueue
    { w with cout := w.cout ++ [Line.queueHeader]
        ++ (drainTempQueue (pqSize tempQueue) tempQueue).map Line.queuePatient
        ++ [Line.queueFooter] }

/-- Member `ERQueueHandler::showTreatedLog` (a `const` member: only `cout` changes). -/
def showTreatedLog (w : World) : World :=
  if w.erSystem.treatedPatients.isEmpty = true then
    { w with cout := w.cout ++ [Line.noTreatedYet] }
  else
    { w with cout := w.cout ++ [Line.logHeader]
        ++ w.erSystem.treatedPatients.map (fun record => Line.logPatient record.1 record.2)
        ++ [Line.logFooter] }

/-- Member `ERQueueHandler::isQueueEmpty`. -/
def isQueueEmpty (w : World) : Bool := pqEmpty w.erSystem.patientQueue

/-- The state at the start of `main`: the table as initialised, a default-constructed
handler, nothing printed. -/
def initWorld : World := ⟨injuryList, ⟨[], []⟩, []⟩

/-! ## Sequences of calls -/

/-- A call of a public member function of the handler, with its inputs. -/
inductive Op where
  | admitNewPatient (name injury : String) (checkIn : Int)
  | treatNextInLine (treatmentTime : Int)
  | showQueueStatus
  | showTreatedLog
  | isQueueEmpty
deriving DecidableEq

/-- Effect of one call on the program state. -/
def step (w : World) : Op → World
  | Op.admitNewPatient name injury checkIn => admitNewPatient w name injury checkIn
  | Op.treatNextInLine treatmentTime => treatNextInLine w treatmentTime
  | Op.showQueueStatus => showQueueStatus w
  | Op.showTreatedLog => showTreatedLog w
  | Op.isQueueEmpty => w

/-- Effect of a sequence of calls. -/
def run (w : World) (ops : List Op) : World := ops.foldl step w

/-- The loop `while (!isQueueEmpty()) treatNextInLine();` the `n`-th call reading the
clock value `clock n`.  The first argument bounds the number of iterations
(the queue size suffices). -/
def treatUntilEmpty : Nat → World → (Nat → Int) → World
  | 0, w, _ => w
  | fuel + 1, w, clock =>
    if isQueueEmpty w = true then w
    else treatUntilEmpty fuel (treatNextInLine w (clock 0)) (fun n => clock (n + 1))

/-! ## Specification vocabulary -/

/-- The class invariant of `std::map`: keys strictly ascending. -/
def MapSorted (m : StdMap) : Prop := m.Pairwise (fun a b => keyLess a.1 b.1 = true)

instance (m : StdMap) : Decidable (MapSorted m) := by
  unfold MapSorted; infer_instance

/-- A key function on indices is a min-heap on `[0, n)`: every index has a key at least
that of its parent. -/
def IsHeapOn {K : Type} [LinearOrder K] (f : Nat → K) (n : Nat) : Prop :=
  ∀ i, 0 < i → i < n → f ((i - 1) / 2) ≤ f i

/-- Precondition of sifting up from hole `h`: every edge is in heap order except possibly the
one from the parent of `h` to `h`, and the children of `h` are in order with
the parent of `h`. -/
def UpPre {K : Type} [LinearOrder K] (f : Nat → K) (h n : Nat) : Prop :=
  (∀ i, 0 < i → i < n → i ≠ h → f ((i - 1) / 2) ≤ f i) ∧
  (∀ c, 0 < c → c < n → (c - 1) / 2 = h → 0 < h → f ((h - 1) / 2) ≤ f c)

/-- Invariant of sifting down through hole `h`: every edge not touching `h` is in heap
order, and the children of `h` are in order with the parent of `h`. -/
def DownInv {K : Type} [LinearOrder K] (f : Nat → K) (h n : Nat) : Prop :=
  (∀ i, 0 < i → i < n → i ≠ h → (i - 1) / 2 ≠ h → f ((i - 1) / 2) ≤ f i) ∧
  (∀ c, 0 < c → c < n → (c - 1) / 2 = h → 0 < h → f ((h - 1) / 2) ≤ f c)

/-- Keys of the vector with `value` standing in the hole. -/
def holeKey {α : Type} [Inhabited α] {K : Type} (key : α → K) (v : List α) (hole : Nat)
    (value : α) : Nat → K :=
  fun i => if i = hole then key value else key (deref v i)

/-- The heap property of `std::is_heap`: no element compares greater than its parent. -/
def IsHeap {α : Type} [Inhabited α] (comp : α → α → Bool) (v : List α) : Prop :=
  ∀ i, 0 < i → i < v.length → comp (deref v ((i - 1) / 2)) (deref v i) = false

/-- Priority key of a patient: severity first, then check-in time, ordered lexicographically. -/
def priorityKey (p : ERPatient) : Lex (Int × Int) := toLex (p.conditionSeverity, p.checkInTime)

/-! ## Bookkeeping over call sequences -/

/-- Number of `admitNewPatient` calls in a sequence. -/
def admittedCount : List Op → Nat
  | [] => 0
  | Op.admitNewPatient _ _ _ :: rest => admittedCount rest + 1
  | _ :: rest => admittedCount rest

/-- What a single call treats: the front patient with the clock reading when the call is
`treatNextInLine` on a non-empty queue, nothing otherwise. -/
def treatedBy (w : World) : Op → List (ERPatient × Int)
  | Op.treatNextInLine treatmentTime =>
    match pqTop w.erSystem.patientQueue with
    | some p => [(p, treatmentTime)]
    | none => []
  | _ => []

/-- The treatments that happen during a sequence of calls, in the order they happen. -/
def treatedTrace : World → List Op → List (ERPatient × Int)
  | _, [] => []
  | w, op :: rest => treatedBy w op ++ treatedTrace (step w op) rest

/-- Whether a call removes a patient from the queue (`1`) or not (`0`): only a
`treatNextInLine` call that finds the queue non-empty does. -/
def removesPatient (w : World) : Op → Nat
  | Op.treatNextInLine _ => if isQueueEmpty w = true then 0 else 1
  | _ => 0

/-- Number of `treatNextInLine` calls in a sequence that find a patient to remove. -/
def treatedCount : World → List Op → Nat
  | _, [] => 0
  | w, op :: rest => removesPatient w op + treatedCount (step w op) rest

/-- Every clock reading taken by a `treatNextInLine` call is at or after the arrival time
of every patient admitted earlier in the sequence (`seen` holds the arrival
times admitted so far). -/
def clocksAfterArrivals : List Int → List Op → Bool
  | _, [] => true
  | seen, Op.admitNewPatient _ _ checkIn :: rest => clocksAfterArrivals (checkIn :: seen) rest
  | seen, Op.treatNextInLine treatmentTime :: rest =>
    seen.all (fun a => decide (a ≤ treatmentTime)) && clocksAfterArrivals seen rest
  | seen, _ :: rest => clocksAfterArrivals seen rest

/-- The order in which patients are to be treated: severity non-decreasing, and check-in
time non-decreasing between patients of equal severity. -/
def TreatedBefore (p q : ERPatient) : Prop :=
  p.conditionSeverity ≤ q.conditionSeverity ∧
    (p.conditionSeverity = q.conditionSeverity → p.checkInTime ≤ q.checkInTime)

/-- The admissions of the determinism example: A (severity 2, t = 10), B (severity 1,
t = 20), C (severity 1, t = 5). -/
def arrivalsABC : List (String × String × Int) :=
  [("A", "Major Bleeding", 10), ("B", "Stroke", 20), ("C", "Stroke", 5)]

/-- An admission as a call. -/
def admissionOp (a : String × String × Int) : Op := Op.admitNewPatient a.1 a.2.1 a.2.2

/-! ## The interactive prompt and `main` -/

/-- A value obtained from `cin` by one extraction. -/
inductive Token where
  | chr (c : Char)
  | line (s : String)
  | int (n : Int)
deriving DecidableEq

/-- The state of `main`: the program state, the unread input and the number of clock
readings taken so far. -/
structure MainState where
  world : World
  cin : List Token
  tick : Nat

/-- How a run of `main` ends: it returns, it waits forever in a prompt whose extraction
failed, or the iteration bound of the model was reached. -/
inductive Outcome where
  | finished
  | blocked
  | running
deriving DecidableEq

/-- The first `while (true)` loop of `promptForNewPatients`: asks until the character read
is `y` or `n` in either case.  Returns the unread input, the output and the
accepted character (`none` when an extraction fails). -/
def readYesNo : List Token → List Line → List Token × List Line × Option Char
  | [], out => ([], out ++ [Line.askAdmit], none)
  | Token.chr choice :: rest, out =>
    if choice.toLower = 'y' ∨ choice.toLower = 'n' then
      (rest, out ++ [Line.askAdmit], some choice)
    else readYesNo rest (out ++ [Line.askAdmit, Line.invalidYesNo])
  | tok :: rest, out => (tok :: rest, out ++ [Line.askAdmit], none)

/-- The second `while (true)` loop of `promptForNewPatients`: asks until the number read is
between `1` and `injuryList.size()`.  An `int` holds 32 bits; a larger number
makes the extraction fail. -/
def readInjuryChoice (size : Nat) :
    List Token → List Line → List Token × List Line × Option Int
  | [], out => ([], out ++ [Line.askInjuryNumber], none)
  | Token.int injuryChoice :: rest, out =>
    if injuryChoice < -2147483648 ∨ 2147483647 < injuryChoice then
      (rest, out ++ [Line.askInjuryNumber], none)
    else if injuryChoice ≥ 1 ∧ injuryChoice ≤ (size : Int) then
      (rest, out ++ [Line.askInjuryNumber], some injuryChoice)
    else
      readInjuryChoice size rest (out ++ [Line.askInjuryNumber, Line.invalidInjuryNumber size])
  | tok :: rest, out => (tok :: rest, out ++ [Line.askInjuryNumber], none)

/-- The menu printed by `for (const auto& entry : injuryList)`: the keys in map order,
numbered from 1. -/
def injuryMenu (m : StdMap) : List Line :=
  m.enum.map fun e => Line.menuEntry (e.1 + 1) e.2.1

/-- Member `ERQueueHandler::promptForNewPatients`.  The result is `some true` when a patient
was admitted, `some false` when the answer was no, and `none` when an
extraction failed and the call never returns. -/
def promptForNewPatients (clock : Nat → Int) (s : MainState) : MainState × Option Bool :=
  let r1 := readYesNo s.cin s.world.cout
  match r1.2.2 with
  | none => ({ s with world := { s.world with cout := r1.2.1 }, cin := r1.1 }, none)
  | some choice =>
    if choice.toLower = 'y' then
      match r1.1 with
      | Token.line name :: rest =>
        let out := r1.2.1 ++ [Line.askName, Line.menuHeader] ++ injuryMenu s.world.injuryList
        let r2 := readInjuryChoice s.world.injuryList.length rest out
        match r2.2.2 with
        | none => ({ s with world := { s.world with cout := r2.2.1 }, cin := r2.1 }, none)
        | some injuryChoice =>
          let injury := (s.world.injuryList.getD (injuryChoice.toNat - 1) default).1
          ({ world := admitNewPatient { s.world with cout := r2.2.1 } name injury (clock s.tick)
             cin := r2.1
             tick := s.tick + 1 }, some true)
      | rest =>
        ({ s with world := { s.world with cout := r1.2.1 ++ [Line.askName] }, cin := rest }, none)
    else
      ({ s with world := { s.world with cout := r1.2.1 }, cin := r1.1 }, some false)

/-- The loop `while (!erSystem.isQueueEmpty())` of `main`.  The first argument bounds the number
of iterations. -/
def mainLoop (clock : Nat → Int) : Nat → MainState → MainState × Outcome
  | 0, s => (s, Outcome.running)
  | fuel + 1, s =>
    if isQueueEmpty s.world = true then (s, Outcome.finished)
    else
      let r := promptForNewPatients clock s
      match r.2 with
      | none => (r.1, Outcome.blocked)
      | some admitted =>
        let s1 : MainState :=
          if admitted = true then { r.1 with world := showQueueStatus r.1.world } else r.1
        mainLoop clock fuel
          { s1 with world := treatNextInLine s1.world (clock s1.tick), tick := s1.tick + 1 }

/-- The five admissions at the start of `main`, `now` being the start time. -/
def seedAdmissions (now : Int) : List Op :=
  [ Op.admitNewPatient "Paarth Soni" "Broken Bone" (now - 10),
    Op.admitNewPatient "Zach Hasan" "Sprained Ankle" (now - 20),
    Op.admitNewPatient "Kian Zarkani" "Heart Attack" (now - 5),
    Op.admitNewPatient "Jason Ie" "Severe Burn" (now - 15),
    Op.admitNewPatient "Ronin Lee" "Mild Concussion" (now - 2) ]

/-- The function `main`: banner, start time, seeded admissions, queue display, the
treatment loop, and on its exit the treated log and the closing line. -/
def main (fuel : Nat) (cin : List Token) (clock : Nat → Int) : MainState × Outcome :=
  let w0 : World := { initWorld with cout := [Line.simulationStarting] }
  let now := clock 0
  let w1 := showQueueStatus (run w0 (seedAdmissions now))
  let r := mainLoop clock fuel { world := w1, cin := cin, tick := 1 }
  match r.2 with
  | Outcome.finished =>
    let w2 := showTreatedLog r.1.world
    ({ r.1 with world := { w2 with cout := w2.cout ++ [Line.simulationComplete] } },
      Outcome.finished)
  | o => (r.1, o)

/-- The patients that a sequence of calls admits, in order, each with the severity read from
the table at its admission. -/
def admittedTrace : World → List Op → List ERPatient
  | _, [] => []
  | w, Op.admitNewPatient name injury checkIn :: rest =>
    ⟨name, injury, (mapSubscript w.injuryList injury).2, checkIn⟩ ::
      admittedTrace (step w (Op.admitNewPatient name injury checkIn)) rest
  | w, op :: rest => admittedTrace (step w op) rest

/-! ## The table -/

theorem keyLess_trans {a b c : String} (h1 : keyLess a b = true) (h2 : keyLess b c = true) :
    keyLess a c = true := by
  unfold keyLess at *
  rw [decide_eq_true_eq] at *
  exact lt_trans h1 h2

theorem keyLess_irrefl (a : String) : keyLess a a = false := by
  unfold keyLess
  rw [decide_eq_false_iff_not]
  exact lt_irrefl _

theorem keyLess_total {a b : String} (hne : a ≠ b) (h : keyLess a b = false) :
    keyLess b a = true := by
  unfold keyLess at *
  rw [decide_eq_false_iff_not] at h
  rw [decide_eq_true_eq]
  rcases lt_trichotomy a.data b.data with hlt | heq | hgt
  · exact absurd hlt h
  · exact absurd (String.ext heq) hne
  · exact hgt

theorem mapFind_cons (k k' : String) (v : Int) (rest : StdMap) :
    mapFind ((k', v) :: rest) k = if k = k' then some v else mapFind rest k := by
  unfold mapFind
  rw [List.lookup_cons]
  by_cases h : k = k'
  · subst h; simp
  · have : (k == k') = false := by simpa using h
    rw [this, if_neg h]

theorem mapFind_none_of_less : ∀ (m : StdMap) (k : String),
    (∀ e ∈ m, keyLess k e.1 = true) → mapFind m k = none
  | [], _, _ => rfl
  | (k', v) :: rest, k, h => by
    have hlt := h (k', v) (List.mem_cons_self _ _)
    have hne : k ≠ k' := by
      intro e; subst e; rw [keyLess_irrefl] at hlt; exact absurd hlt (by decide)
    rw [mapFind_cons, if_neg hne]
    exact mapFind_none_of_less rest k (fun e he => h e (List.mem_cons_of_mem _ he))

theorem mapSubscript_of_key : ∀ (m : StdMap) (k : String) (v : Int), MapSorted m →
    mapFind m k = some v → mapSubscript m k = (m, v)
  | [], _, _, _, h => by simp [mapFind] at h
  | (k', v') :: rest, k, v, hs, h => by
    rw [mapFind_cons] at h
    unfold mapSubscript
    by_cases hk : k = k'
    · rw [if_pos hk] at h ⊢
      cases h; rfl
    · rw [if_neg hk] at h ⊢
      have hs' := List.pairwise_cons.1 hs
      by_cases hl : keyLess k k' = true
      · have : mapFind rest k = none :=
          mapFind_none_of_less rest k (fun e he => keyLess_trans hl (hs'.1 e he))
        rw [this] at h; cases h
      · rw [if_neg hl, mapSubscript_of_key rest k v hs'.2 h]

theorem mapSubscript_of_not_key : ∀ (m : StdMap) (k : String), mapFind m k = none →
    (mapSubscript m k).2 = 0 ∧ mapFind (mapSubscript m k).1 k = some 0
  | [], k, _ => by simp [mapSubscript, mapFind]
  | (k', v') :: rest, k, h => by
    rw [mapFind_cons] at h
    unfold mapSubscript
    by_cases hk : k = k'
    · rw [if_pos hk] at h; cases h
    · rw [if_neg hk] at h ⊢
      by_cases hl : keyLess k k' = true
      · rw [if_pos hl]
        exact ⟨rfl, by rw [mapFind_cons, if_pos rfl]⟩
      · rw [if_neg hl]
        have ih := mapSubscript_of_not_key rest k h
        exact ⟨ih.1, by rw [mapFind_cons, if_neg hk]; exact ih.2⟩

theorem mapSubscript_find_other : ∀ (m : StdMap) (k k2 : String), k2 ≠ k →
    mapFind (mapSubscript m k).1 k2 = mapFind m k2
  | [], k, k2, hne => by simp [mapSubscript, mapFind, hne]
  | (k', v') :: rest, k, k2, hne => by
    unfold mapSubscript
    by_cases hk : k = k'
    · rw [if_pos hk]
    · rw [if_neg hk]
      by_cases hl : keyLess k k' = true
      · rw [if_pos hl]
        show mapFind ((k, 0) :: (k', v') :: rest) k2 = _
        rw [mapFind_cons, if_neg hne]
      · rw [if_neg hl]
        show mapFind ((k', v') :: (mapSubscript rest k).1) k2 = _
        rw [mapFind_cons, mapFind_cons, mapSubscript_find_other rest k k2 hne]

theorem mapSubscript_keys_subset : ∀ (m : StdMap) (k : String),
    ∀ e ∈ (mapSubscript m k).1, e ∈ m ∨ e = (k, 0)
  | [], k, e, he => by
    simp [mapSubscript] at he
    exact Or.inr he
  | (k', v') :: rest, k, e, he => by
    unfold mapSubscript at he
    by_cases hk : k = k'
    · rw [if_pos hk] at he; exact Or.inl he
    · rw [if_neg hk] at he
      by_cases hl : keyLess k k' = true
      · rw [if_pos hl] at he
        rcases List.mem_cons.1 he with h1 | h2
        · exact Or.inr h1
        · exact Or.inl h2
      · rw [if_neg hl] at he
        rcases List.mem_cons.1 he with h1 | h2
        · exact Or.inl (h1 ▸ List.mem_cons_self _ _)
        · rcases mapSubscript_keys_subset rest k e h2 with h3 | h4
          · exact Or.inl (List.mem_cons_of_mem _ h3)
          · exact Or.inr h4

theorem mapSubscript_sorted : ∀ (m : StdMap) (k : String), MapSorted m →
    MapSorted (mapSubscript m k).1
  | [], k, _ => by simp [mapSubscript, MapSorted]
  | (k', v') :: rest, k, hs => by
    have hs' := List.pairwise_cons.1 hs
    unfold mapSubscript
    by_cases hk : k = k'
    · rw [if_pos hk]; exact hs
    · rw [if_neg hk]
      by_cases hl : keyLess k k' = true
      · rw [if_pos hl]
        refine List.pairwise_cons.2 ⟨?_, hs⟩
        intro e he
        rcases List.mem_cons.1 he with h1 | h2
        · rw [h1]; exact hl
        · exact keyLess_trans hl (hs'.1 e h2)
      · rw [if_neg hl]
        refine List.pairwise_cons.2 ⟨?_, mapSubscript_sorted rest k hs'.2⟩
        intro e he
        rcases mapSubscript_keys_subset rest k e he with h3 | h4
        · exact hs'.1 e h3
        · rw [h4]
          exact keyLess_total hk (by simpa using hl)

theorem injuryList_sorted : MapSorted injuryList := by
  decide

/-! ## Heap order on key functions -/

section HeapOrder
variable {K : Type} [LinearOrder K]

theorem upPre_step {f g : Nat → K} {h n : Nat} (hpos : 0 < h) (hn : h < n)
    (hpre : UpPre f h n) (hlt : f h < f ((h - 1) / 2))
    (hg : ∀ i, g i = if i = (h - 1) / 2 then f h else if i = h then f ((h - 1) / 2) else f i) :
    UpPre g ((h - 1) / 2) n := by
  obtain ⟨he, hgp⟩ := hpre
  have hph : (h - 1) / 2 < h := by omega
  refine ⟨?_, ?_⟩
  · intro i hi hin hip
    by_cases hih : i = h
    · subst hih
      rw [hg ((i - 1) / 2), hg i, if_pos rfl, if_neg hip, if_pos rfl]
      exact le_of_lt hlt
    · rw [hg i, if_neg hip, if_neg hih, hg ((i - 1) / 2)]
      by_cases hq : (i - 1) / 2 = (h - 1) / 2
      · rw [if_pos hq]
        have := he i hi hin hih
        rw [hq] at this
        exact le_trans (le_of_lt hlt) this
      · rw [if_neg hq]
        by_cases hq2 : (i - 1) / 2 = h
        · rw [if_pos hq2]
          exact hgp i hi hin hq2 hpos
        · rw [if_neg hq2]
          exact he i hi hin hih
  · intro c hc hcn hcp hp0
    have h1 : (((h - 1) / 2) - 1) / 2 ≠ (h - 1) / 2 := by omega
    have h2 : (((h - 1) / 2) - 1) / 2 ≠ h := by omega
    have hcne : c ≠ (h - 1) / 2 := by omega
    rw [hg ((((h - 1) / 2) - 1) / 2), if_neg h1, if_neg h2, hg c, if_neg hcne]
    have hpe := he ((h - 1) / 2) hp0 (by omega) (by omega)
    by_cases hch : c = h
    · rw [if_pos hch]; exact hpe
    · rw [if_neg hch]
      have := he c hc hcn hch
      rw [hcp] at this
      exact le_trans hpe this

theorem upPre_done {f : Nat → K} {h n : Nat} (hpre : UpPre f h n)
    (hstop : h = 0 ∨ f ((h - 1) / 2) ≤ f h) : IsHeapOn f n := by
  intro i hi hin
  by_cases hih : i = h
  · subst hih
    rcases hstop with h0 | hle
    · omega
    · exact hle
  · exact hpre.1 i hi hin hih

theorem downInv_step {f g : Nat → K} {h c n : Nat} (hc : c = 2 * h + 1 ∨ c = 2 * h + 2)
    (hinv : DownInv f h n) (hcn : c < n)
    (hsib : ∀ s, s < n → (s - 1) / 2 = h → 0 < s → f c ≤ f s)
    (hg : ∀ i, g i = if i = c then f h else if i = h then f c else f i) :
    DownInv g c n := by
  obtain ⟨he, hgp⟩ := hinv
  have hpc : (c - 1) / 2 = h := by omega
  have hch : c ≠ h := by omega
  refine ⟨?_, ?_⟩
  · intro i hi hin hic hipc
    rw [hg i, if_neg hic, hg ((i - 1) / 2), if_neg hipc]
    by_cases hih : i = h
    · subst hih
      have hq : (i - 1) / 2 ≠ i := by omega
      rw [if_pos rfl, if_neg hq]
      exact hgp c (by omega) hcn hpc hi
    · rw [if_neg hih]
      by_cases hq : (i - 1) / 2 = h
      · rw [if_pos hq]
        exact hsib i hin hq hi
      · rw [if_neg hq]
        exact he i hi hin hih hq
  · intro d hd hdn hdp hc0
    have hdc : d ≠ c := by omega
    have hdh : d ≠ h := by omega
    rw [hpc, hg h, if_neg (Ne.symm hch), if_pos rfl, hg d, if_neg hdc, if_neg hdh]
    have := he d hd hdn hdh (by omega)
    rw [hdp] at this
    exact this

theorem downInv_leaf {f : Nat → K} {h n : Nat} (hinv : DownInv f h n) (hleaf : n ≤ 2 * h + 1) :
    UpPre f h n := by
  refine ⟨?_, hinv.2⟩
  intro i hi hin hih
  exact hinv.1 i hi hin hih (by omega)

theorem isHeapOn_root_le {f : Nat → K} {n : Nat} (hheap : IsHeapOn f n) :
    ∀ i, i < n → f 0 ≤ f i := by
  intro i
  induction i using Nat.strong_induction_on with
  | _ i ih =>
    intro hin
    rcases Nat.eq_zero_or_pos i with h0 | hpos
    · subst h0; exact le_refl _
    · exact le_trans (ih ((i - 1) / 2) (by omega) (by omega)) (hheap i hpos hin)

end HeapOrder

section HeapList
variable {α : Type} [Inhabited α]

theorem deref_set (v : List α) (h i : Nat) (x : α) (hh : h < v.length) :
    deref (v.set h x) i = if i = h then x else deref v i := by
  unfold deref
  rw [List.getD_eq_getElem?_getD, List.getD_eq_getElem?_getD, List.getElem?_set]
  by_cases hih : h = i
  · subst hih; simp [hh]
  · rw [if_neg hih, if_neg (Ne.symm hih)]

theorem deref_set_ne (v : List α) (h i : Nat) (x : α) (hih : i ≠ h) :
    deref (v.set h x) i = deref v i := by
  unfold deref
  rw [List.getD_eq_getElem?_getD, List.getD_eq_getElem?_getD, List.getElem?_set_ne (Ne.symm hih)]

theorem deref_cons_succ (a : α) (t : List α) (j : Nat) : deref (a :: t) (j + 1) = deref t j := by
  simp [deref]

theorem deref_cons_zero (a : α) (t : List α) : deref (a :: t) 0 = a := by
  simp [deref]

theorem deref_mem (v : List α) (i : Nat) (hi : i < v.length) : deref v i ∈ v := by
  unfold deref
  rw [List.getD_eq_getElem _ _ hi]
  exact List.getElem_mem hi

theorem cons_set_perm (x : α) : ∀ (t : List α) (j : Nat), j < t.length →
    (deref t j :: t.set j x).Perm (x :: t)
  | [], j, hj => by simp at hj
  | b :: t, 0, _ => by
    rw [deref_cons_zero, List.set_cons_zero]
    exact List.Perm.swap _ _ _
  | b :: t, j + 1, hj => by
    rw [deref_cons_succ, List.set_cons_succ]
    have ih := cons_set_perm x t j (by simpa using hj)
    exact ((List.Perm.swap b (deref t j) (t.set j x)).trans (ih.cons b)).trans
      (List.Perm.swap x b t)

theorem set_set_perm_of_ne (x : α) : ∀ (l : List α) (i j : Nat), i ≠ j → i < l.length →
    j < l.length → ((l.set i (deref l j)).set j x).Perm (l.set i x)
  | [], i, j, _, hi, _ => by simp at hi
  | a :: t, 0, 0, hij, _, _ => by omega
  | a :: t, 0, j + 1, _, _, hj => by
    rw [deref_cons_succ, List.set_cons_zero, List.set_cons_succ, List.set_cons_zero]
    exact cons_set_perm x t j (by simpa using hj)
  | a :: t, i + 1, 0, _, hi, _ => by
    rw [deref_cons_zero, List.set_cons_succ, List.set_cons_zero, List.set_cons_succ]
    have hi' : i < t.length := by simpa using hi
    have h1 := (cons_set_perm a t i hi').cons x
    have h2 := (cons_set_perm x t i hi').cons a
    have h3 : (deref t i :: x :: t.set i a).Perm (deref t i :: a :: t.set i x) :=
      ((List.Perm.swap _ _ _).trans ((h1.trans (List.Perm.swap _ _ _)).trans h2.symm)).trans
        (List.Perm.swap _ _ _)
    exact h3.cons_inv
  | a :: t, i + 1, j + 1, hij, hi, hj => by
    rw [deref_cons_succ, List.set_cons_succ, List.set_cons_succ, List.set_cons_succ]
    exact (set_set_perm_of_ne x t i j (by omega) (by simpa using hi) (by simpa using hj)).cons a

end HeapList

section HeapAlgo
variable {α : Type} [Inhabited α] {K : Type}

theorem holeKey_set (key : α → K) (v : List α) (hole : Nat) (value : α)
    (hh : hole < v.length) :
    (fun i => key (deref (v.set hole value) i)) = holeKey key v hole value := by
  funext i
  unfold holeKey
  rw [deref_set v hole i value hh]
  split <;> rfl

theorem pushHeapLoop_length (comp : α → α → Bool) : ∀ (fuel : Nat) (v : List α)
    (hole top : Nat) (value : α), (pushHeapLoop comp fuel v hole top value).length = v.length
  | 0, v, hole, top, value => by simp [pushHeapLoop]
  | fuel + 1, v, hole, top, value => by
    simp only [pushHeapLoop]
    split
    · rw [pushHeapLoop_length comp fuel]; simp
    · simp

theorem pushHeapLoop_deref_gt (comp : α → α → Bool) : ∀ (fuel : Nat) (v : List α)
    (hole top : Nat) (value : α) (j : Nat), hole < j →
    deref (pushHeapLoop comp fuel v hole top value) j = deref v j
  | 0, v, hole, top, value, j, hj => by
    simp only [pushHeapLoop]
    exact deref_set_ne v hole j value (by omega)
  | fuel + 1, v, hole, top, value, j, hj => by
    simp only [pushHeapLoop]
    split
    · rw [pushHeapLoop_deref_gt comp fuel _ _ _ _ j (by omega)]
      exact deref_set_ne v hole j _ (by omega)
    · exact deref_set_ne v hole j value (by omega)

theorem pushHeapLoop_perm (comp : α → α → Bool) : ∀ (fuel : Nat) (v : List α)
    (hole top : Nat) (value : α), hole < v.length →
    (pushHeapLoop comp fuel v hole top value).Perm (v.set hole value)
  | 0, v, hole, top, value, _ => by simp [pushHeapLoop]
  | fuel + 1, v, hole, top, value, hh => by
    simp only [pushHeapLoop]
    split
    · rename_i hc
      have hp : (hole - 1) / 2 < hole := by omega
      have ih := pushHeapLoop_perm comp fuel (v.set hole (deref v ((hole - 1) / 2)))
        ((hole - 1) / 2) top value (by simp; omega)
      exact ih.trans (set_set_perm_of_ne value v hole ((hole - 1) / 2) (by omega) hh (by omega))
    · exact List.Perm.refl _

variable [LinearOrder K]

theorem pushHeapLoop_isHeapOn (comp : α → α → Bool) (key : α → K)
    (hk : ∀ a b, comp a b = true ↔ key b < key a) : ∀ (fuel : Nat) (v : List α)
    (hole : Nat) (value : α) (n : Nat), hole ≤ fuel → hole < n → n ≤ v.length →
    UpPre (holeKey key v hole value) hole n →
    IsHeapOn (fun i => key (deref (pushHeapLoop comp fuel v hole 0 value) i)) n
  | 0, v, hole, value, n, hf, hn, hl, hpre => by
    simp only [pushHeapLoop]
    rw [holeKey_set key v hole value (by omega)]
    exact upPre_done hpre (Or.inl (by omega))
  | fuel + 1, v, hole, value, n, hf, hn, hl, hpre => by
    simp only [pushHeapLoop]
    split
    · rename_i hc
      obtain ⟨hpos, hcomp⟩ := hc
      have hp : (hole - 1) / 2 < hole := by omega
      apply pushHeapLoop_isHeapOn comp key hk fuel _ _ value n (by omega) (by omega)
        (by simp; omega)
      apply upPre_step (by omega) hn hpre
      · show holeKey key v hole value hole < holeKey key v hole value ((hole - 1) / 2)
        unfold holeKey
        rw [if_pos rfl, if_neg (by omega)]
        exact (hk _ _).1 hcomp
      · intro i
        unfold holeKey
        rw [deref_set v hole i _ (by omega)]
        by_cases h1 : i = (hole - 1) / 2
        · rw [if_pos h1, if_pos h1, if_pos rfl]
        · rw [if_neg h1, if_neg h1]
          by_cases h2 : i = hole
          · rw [if_pos h2, if_pos h2, if_neg (by omega)]
          · rw [if_neg h2, if_neg h2, if_neg h2]
    · rename_i hc
      rw [holeKey_set key v hole value (by omega)]
      apply upPre_done hpre
      by_cases hpos : hole = 0
      · exact Or.inl hpos
      · right
        have hp : (hole - 1) / 2 < hole := by omega
        unfold holeKey
        rw [if_pos rfl, if_neg (by omega)]
        have : ¬ comp (deref v ((hole - 1) / 2)) value = true := fun h => hc ⟨by omega, h⟩
        rw [hk] at this
        exact not_lt.1 this

end HeapAlgo

section HeapAdjust
variable {α : Type} [Inhabited α] {K : Type} [LinearOrder K]

theorem adjustHeapLoop_spec (comp : α → α → Bool) (key : α → K)
    (hk : ∀ a b, comp a b = true ↔ key b < key a) (value : α) (len : Nat) :
    ∀ (fuel : Nat) (v : List α) (h : Nat), h < len → len ≤ v.length → len ≤ fuel + h →
    (adjustHeapLoop comp fuel v h h len).2.1 = (adjustHeapLoop comp fuel v h h len).2.2 ∧
    (adjustHeapLoop comp fuel v h h len).2.1 < len ∧
    ¬ (adjustHeapLoop comp fuel v h h len).2.2 < (len - 1) / 2 ∧
    (adjustHeapLoop comp fuel v h h len).1.length = v.length ∧
    (DownInv (holeKey key v h value) h len →
      DownInv (holeKey key (adjustHeapLoop comp fuel v h h len).1
        (adjustHeapLoop comp fuel v h h len).2.1 value)
        (adjustHeapLoop comp fuel v h h len).2.1 len) ∧
    (((adjustHeapLoop comp fuel v h h len).1.set
        (adjustHeapLoop comp fuel v h h len).2.1 value).Perm (v.set h value)) ∧
    (∀ j, len ≤ j → deref (adjustHeapLoop comp fuel v h h len).1 j = deref v j)
  | 0, v, h, hlen, _, hf => by omega
  | fuel + 1, v, h, hlen, hvl, hf => by
    by_cases hcond : h < (len - 1) / 2
    · obtain ⟨c, hc⟩ : ∃ c, c =
          (if comp (deref v (2 * (h + 1))) (deref v (2 * (h + 1) - 1)) = true
          then 2 * (h + 1) - 1 else 2 * (h + 1)) := ⟨_, rfl⟩
      have hstep : adjustHeapLoop comp (fuel + 1) v h h len =
          adjustHeapLoop comp fuel (v.set h (deref v c)) c c len := by
        simp only [adjustHeapLoop]
        rw [if_pos hcond, ← hc]
      have hc12 : c = 2 * h + 1 ∨ c = 2 * h + 2 := by
        rw [hc]; split <;> omega
      have hclen : c < len := by omega
      have hch : c ≠ h := by omega
      obtain ⟨i1, i2, i3, i4, i5, i6, i7⟩ := adjustHeapLoop_spec comp key hk value len fuel
        (v.set h (deref v c)) c hclen (by simp; omega) (by omega)
      rw [hstep]
      refine ⟨i1, i2, i3, by rw [i4]; simp, ?_, ?_, ?_⟩
      · intro hinv
        apply i5
        apply downInv_step hc12 hinv hclen
        · intro s hs hsp hs0
          have hs12 : s = 2 * h + 1 ∨ s = 2 * h + 2 := by omega
          unfold holeKey
          rw [if_neg hch, if_neg (by omega)]
          by_cases hcmp : comp (deref v (2 * (h + 1))) (deref v (2 * (h + 1) - 1)) = true
          · rw [if_pos hcmp] at hc
            have hlt := (hk _ _).1 hcmp
            have e1 : 2 * (h + 1) - 1 = 2 * h + 1 := by omega
            have e2 : 2 * (h + 1) = 2 * h + 2 := by omega
            rw [e1, e2] at hlt
            rw [e1] at hc
            subst hc
            rcases hs12 with hs1 | hs2
            · rw [hs1]
            · rw [hs2]; exact le_of_lt hlt
          · rw [if_neg hcmp] at hc
            rw [hk] at hcmp
            have hle := not_lt.1 hcmp
            have e1 : 2 * (h + 1) - 1 = 2 * h + 1 := by omega
            have e2 : 2 * (h + 1) = 2 * h + 2 := by omega
            rw [e1, e2] at hle
            rw [e2] at hc
            subst hc
            rcases hs12 with hs1 | hs2
            · rw [hs1]; exact hle
            · rw [hs2]
        · intro i
          unfold holeKey
          rw [deref_set v h i _ (by omega), if_pos rfl, if_neg hch]
          by_cases h1 : i = c
          · rw [if_pos h1, if_pos h1]
          · rw [if_neg h1, if_neg h1]
            by_cases h2 : i = h
            · rw [if_pos h2, if_pos h2]
            · rw [if_neg h2, if_neg h2, if_neg h2]
      · exact i6.trans (set_set_perm_of_ne value v h c (Ne.symm hch) (by omega) (by omega))
      · intro j hj
        rw [i7 j hj]
        exact deref_set_ne v h j _ (by omega)
    · have hstep : adjustHeapLoop comp (fuel + 1) v h h len = (v, h, h) := by
        simp only [adjustHeapLoop]
        rw [if_neg hcond]
      rw [hstep]
      exact ⟨rfl, hlen, hcond, rfl, fun hinv => hinv, List.Perm.refl _, fun _ _ => rfl⟩

end HeapAdjust

section HeapSpec
variable {α : Type} [Inhabited α]

theorem deref_eq_getElem (v : List α) (i : Nat) (hi : i < v.length) : deref v i = v[i] := by
  unfold deref
  exact List.getD_eq_getElem _ _ hi

theorem set_deref_self : ∀ (v : List α) (i : Nat), v.set i (deref v i) = v
  | [], _ => by simp
  | a :: t, 0 => by rw [deref_cons_zero, List.set_cons_zero]
  | a :: t, i + 1 => by rw [deref_cons_succ, List.set_cons_succ, set_deref_self t i]

theorem deref_append_left (c : List α) (x : α) (i : Nat) (hi : i < c.length) :
    deref (c ++ [x]) i = deref c i := by
  unfold deref
  exact List.getD_append _ _ _ _ hi

theorem deref_append_length (c : List α) (x : α) : deref (c ++ [x]) c.length = x := by
  unfold deref
  rw [List.getD_append_right _ _ _ _ (le_refl _)]
  simp

theorem deref_dropLast (v : List α) (i : Nat) (hi : i < v.length - 1) :
    deref v.dropLast i = deref v i := by
  unfold deref
  rw [List.getD_eq_getElem?_getD, List.getD_eq_getElem?_getD, List.getElem?_dropLast, if_pos hi]

theorem eq_dropLast_append_deref (v : List α) (hv : v ≠ []) :
    v = v.dropLast ++ [deref v (v.length - 1)] := by
  have hlen : 0 < v.length := List.length_pos.2 hv
  rw [deref_eq_getElem v _ (by omega), ← List.getLast_eq_getElem v hv]
  exact (List.dropLast_append_getLast hv).symm

variable {K : Type} [LinearOrder K]

theorem isHeap_iff (comp : α → α → Bool) (key : α → K)
    (hk : ∀ a b, comp a b = true ↔ key b < key a) (v : List α) :
    IsHeap comp v ↔ IsHeapOn (fun i => key (deref v i)) v.length := by
  unfold IsHeap IsHeapOn
  constructor
  · intro h i hi hin
    have := h i hi hin
    rw [← Bool.not_eq_true, hk] at this
    exact not_lt.1 this
  · intro h i hi hin
    rw [← Bool.not_eq_true, hk]
    exact not_lt.2 (h i hi hin)

theorem adjust_heap_spec (comp : α → α → Bool) (key : α → K)
    (hk : ∀ a b, comp a b = true ↔ key b < key a) (v : List α) (len : Nat) (value : α)
    (hlen : 0 < len) (hvl : len ≤ v.length) (hinv : DownInv (holeKey key v 0 value) 0 len) :
    (adjust_heap comp v 0 len value).length = v.length ∧
    IsHeapOn (fun i => key (deref (adjust_heap comp v 0 len value) i)) len ∧
    (adjust_heap comp v 0 len value).Perm (v.set 0 value) ∧
    (∀ j, len ≤ j → deref (adjust_heap comp v 0 len value) j = deref v j) := by
  obtain ⟨s1, s2, s3, s4, s5, s6, s7⟩ :=
    adjustHeapLoop_spec comp key hk value len len v 0 hlen hvl (by omega)
  have s5' := s5 hinv
  unfold adjust_heap
  simp only []
  generalize adjustHeapLoop comp len v 0 0 len = st at s1 s2 s3 s4 s5' s6 s7
  obtain ⟨w, h1, sc⟩ := st
  simp only [] at s1 s2 s3 s4 s5' s6 s7 ⊢
  subst s1
  by_cases hodd : len % 2 = 0 ∧ h1 = (len - 2) / 2
  · rw [if_pos hodd]
    simp only []
    have hc : 2 * (h1 + 1) - 1 = 2 * h1 + 1 := by omega
    rw [hc]
    have hcl : 2 * h1 + 1 < len := by omega
    have hne : h1 ≠ 2 * h1 + 1 := by omega
    have hdown : DownInv (holeKey key (w.set h1 (deref w (2 * h1 + 1))) (2 * h1 + 1) value)
        (2 * h1 + 1) len := by
      apply downInv_step (Or.inl rfl) s5' hcl
      · intro s hs hsp hs0
        have : s = 2 * h1 + 1 := by omega
        rw [this]
      · intro i
        unfold holeKey
        rw [deref_set w h1 i _ (by omega), if_pos rfl, if_neg (Ne.symm hne)]
        by_cases e1 : i = 2 * h1 + 1
        · rw [if_pos e1, if_pos e1]
        · rw [if_neg e1, if_neg e1]
          by_cases e2 : i = h1
          · rw [if_pos e2, if_pos e2]
          · rw [if_neg e2, if_neg e2, if_neg e2]
    refine ⟨?_, ?_, ?_, ?_⟩
    · rw [pushHeapLoop_length]; simp [s4]
    · exact pushHeapLoop_isHeapOn comp key hk _ _ _ value len (le_refl _) hcl
        (by simp; omega) (downInv_leaf hdown (by omega))
    · refine (pushHeapLoop_perm comp _ _ _ 0 value (by simp; omega)).trans ?_
      exact (set_set_perm_of_ne value w h1 (2 * h1 + 1) hne (by omega) (by omega)).trans s6
    · intro j hj
      rw [pushHeapLoop_deref_gt comp _ _ _ _ _ j (by omega), deref_set_ne w h1 j _ (by omega)]
      exact s7 j hj
  · rw [if_neg hodd]
    simp only []
    refine ⟨?_, ?_, ?_, ?_⟩
    · rw [pushHeapLoop_length]; exact s4
    · exact pushHeapLoop_isHeapOn comp key hk _ _ _ value len (le_refl _) s2
        (by omega) (downInv_leaf s5' (by omega))
    · exact (pushHeapLoop_perm comp _ _ _ 0 value (by omega)).trans s6
    · intro j hj
      rw [pushHeapLoop_deref_gt comp _ _ _ _ _ j (by omega)]
      exact s7 j hj

end HeapSpec

section QueueSpec
variable {α : Type} [Inhabited α] {K : Type} [LinearOrder K]

theorem pqPush_length (comp : α → α → Bool) (c : List α) (x : α) :
    (pqPush comp c x).length = c.length + 1 := by
  unfold pqPush push_heap
  simp only []
  rw [pushHeapLoop_length]
  simp

theorem pqPush_perm (comp : α → α → Bool) (c : List α) (x : α) :
    (pqPush comp c x).Perm (x :: c) := by
  unfold pqPush push_heap
  simp only []
  have hl : (c ++ [x]).length - 1 = c.length := by simp
  rw [hl]
  refine (pushHeapLoop_perm comp _ _ _ 0 _ (by simp)).trans ?_
  rw [set_deref_self]
  exact List.perm_append_singleton x c

theorem pqPush_isHeap (comp : α → α → Bool) (key : α → K)
    (hk : ∀ a b, comp a b = true ↔ key b < key a) (c : List α) (x : α)
    (hc : IsHeap comp c) : IsHeap comp (pqPush comp c x) := by
  rw [isHeap_iff comp key hk, pqPush_length]
  rw [isHeap_iff comp key hk] at hc
  unfold pqPush push_heap
  simp only []
  have hl : (c ++ [x]).length - 1 = c.length := by simp
  rw [hl]
  apply pushHeapLoop_isHeapOn comp key hk _ _ _ _ _ (le_refl _) (by omega) (by simp)
  refine ⟨?_, ?_⟩
  · intro i hi hin hne
    have h1 : i < c.length := by omega
    have h2 : (i - 1) / 2 < c.length := by omega
    unfold holeKey
    rw [if_neg (by omega), if_neg (by omega), deref_append_left c x _ h1,
      deref_append_left c x _ h2]
    exact hc i hi h1
  · intro d hd hdn hdp _
    omega

theorem pop_heap_spec (comp : α → α → Bool) (key : α → K)
    (hk : ∀ a b, comp a b = true ↔ key b < key a) (v : List α)
    (hv : IsHeap comp v) (hlen : 1 < v.length) :
    (pop_heap comp v).length = v.length ∧
    IsHeapOn (fun i => key (deref (pop_heap comp v) i)) (v.length - 1) ∧
    (pop_heap comp v).Perm v ∧
    deref (pop_heap comp v) (v.length - 1) = deref v 0 := by
  rw [isHeap_iff comp key hk] at hv
  unfold pop_heap
  rw [if_pos hlen]
  simp only []
  have hinv : DownInv (holeKey key (v.set (v.length - 1) (deref v 0)) 0
      (deref v (v.length - 1))) 0 (v.length - 1) := by
    refine ⟨?_, ?_⟩
    · intro i hi hin hne hpne
      unfold holeKey
      rw [if_neg hpne, if_neg hne, deref_set_ne v _ _ _ (by omega),
        deref_set_ne v _ _ _ (by omega)]
      exact hv i hi (by omega)
    · intro d _ _ _ h0
      omega
  obtain ⟨a1, a2, a3, a4⟩ := adjust_heap_spec comp key hk
    (v.set (v.length - 1) (deref v 0)) (v.length - 1) (deref v (v.length - 1))
    (by omega) (by simp) hinv
  refine ⟨by rw [a1]; simp, a2, ?_, ?_⟩
  · refine a3.trans ?_
    have := set_set_perm_of_ne (deref v (v.length - 1)) v (v.length - 1) 0 (by omega)
      (by omega) (by omega)
    rw [set_deref_self] at this
    exact this
  · rw [a4 _ (le_refl _), deref_set v _ _ _ (by omega), if_pos rfl]

theorem pqPop_length (comp : α → α → Bool) (key : α → K)
    (hk : ∀ a b, comp a b = true ↔ key b < key a) (c : List α) (hc : IsHeap comp c) :
    (pqPop comp c).length = c.length - 1 := by
  unfold pqPop
  rw [List.length_dropLast]
  by_cases hlen : 1 < c.length
  · rw [(pop_heap_spec comp key hk c hc hlen).1]
  · unfold pop_heap
    rw [if_neg hlen]

theorem pqPop_perm (comp : α → α → Bool) (key : α → K)
    (hk : ∀ a b, comp a b = true ↔ key b < key a) (c : List α) (hc : IsHeap comp c)
    (hne : c ≠ []) : c.Perm (deref c 0 :: pqPop comp c) := by
  have hpos : 0 < c.length := List.length_pos.2 hne
  unfold pqPop
  by_cases hlen : 1 < c.length
  · obtain ⟨p1, _, p3, p4⟩ := pop_heap_spec comp key hk c hc hlen
    have hne2 : pop_heap comp c ≠ [] := by
      intro h; rw [h] at p1; simp at p1; omega
    have hsplit := eq_dropLast_append_deref (pop_heap comp c) hne2
    rw [p1, p4] at hsplit
    have : (pop_heap comp c).Perm (deref c 0 :: (pop_heap comp c).dropLast) := by
      conv => lhs; rw [hsplit]
      exact List.perm_append_singleton _ _
    exact p3.symm.trans this
  · have h1 : c.length = 1 := by omega
    unfold pop_heap
    rw [if_neg hlen]
    match c, h1 with
    | [a], _ => simp [deref]

theorem pqPop_isHeap (comp : α → α → Bool) (key : α → K)
    (hk : ∀ a b, comp a b = true ↔ key b < key a) (c : List α) (hc : IsHeap comp c) :
    IsHeap comp (pqPop comp c) := by
  by_cases hlen : 1 < c.length
  · rw [isHeap_iff comp key hk, pqPop_length comp key hk c hc]
    obtain ⟨p1, p2, _, _⟩ := pop_heap_spec comp key hk c hc hlen
    intro i hi hin
    have := p2 i hi hin
    unfold pqPop
    simp only []
    rw [deref_dropLast _ _ (by omega), deref_dropLast _ _ (by omega)]
    exact this
  · intro i hi hin
    rw [pqPop_length comp key hk c hc] at hin
    omega

theorem isHeap_top_le (comp : α → α → Bool) (key : α → K)
    (hk : ∀ a b, comp a b = true ↔ key b < key a) (c : List α) (hc : IsHeap comp c) :
    ∀ x ∈ c, key (deref c 0) ≤ key x := by
  rw [isHeap_iff comp key hk] at hc
  intro x hx
  obtain ⟨n, hn, rfl⟩ := List.mem_iff_getElem.1 hx
  have := isHeapOn_root_le hc n hn
  simp only [] at this
  rw [deref_eq_getElem c n hn] at this
  exact this

theorem pqTop_eq (c : List α) (hne : c ≠ []) : pqTop c = some (deref c 0) := by
  match c, hne with
  | a :: t, _ => simp [pqTop, deref]

theorem isHeap_nil (comp : α → α → Bool) : IsHeap comp ([] : List α) := by
  intro i _ hin
  simp at hin

end QueueSpec

/-! ## The comparator as an order on priority keys -/

theorem compare_iff_key (a b : ERPatient) :
    CompareERPatients a b = true ↔ priorityKey b < priorityKey a := by
  unfold CompareERPatients priorityKey
  rw [Prod.Lex.lt_iff]
  simp only []
  by_cases h : a.conditionSeverity = b.conditionSeverity
  · rw [if_pos h, decide_eq_true_eq]
    constructor
    · intro hgt; exact Or.inr ⟨h.symm, hgt⟩
    · rintro (hlt | ⟨_, hlt⟩)
      · omega
      · exact hlt
  · rw [if_neg h, decide_eq_true_eq]
    constructor
    · intro hgt; exact Or.inl hgt
    · rintro (hlt | ⟨he, _⟩)
      · exact hlt
      · exact absurd he.symm h

theorem key_le_iff (p q : ERPatient) :
    priorityKey p ≤ priorityKey q ↔
      ¬ q.conditionSeverity < p.conditionSeverity ∧
      ¬ (q.conditionSeverity = p.conditionSeverity ∧ q.checkInTime < p.checkInTime) := by
  unfold priorityKey
  rw [Prod.Lex.le_iff]
  simp only []
  constructor
  · rintro (h | ⟨h1, h2⟩)
    · exact ⟨by omega, fun h' => by omega⟩
    · exact ⟨by omega, fun h' => by omega⟩
  · rintro ⟨h1, h2⟩
    by_cases he : p.conditionSeverity = q.conditionSeverity
    · right
      refine ⟨he, ?_⟩
      by_contra hlt
      exact h2 ⟨he.symm, by omega⟩
    · left; omega

/-! ## The queue of a handler stays a heap -/

theorem admitNewPatient_queue (w : World) (name injury : String) (checkIn : Int) :
    (admitNewPatient w name injury checkIn).erSystem.patientQueue =
      pqPush CompareERPatients w.erSystem.patientQueue
        ⟨name, injury, (mapSubscript w.injuryList injury).2, checkIn⟩ := rfl

theorem admitNewPatient_log (w : World) (name injury : String) (checkIn : Int) :
    (admitNewPatient w name injury checkIn).erSystem.treatedPatients =
      w.erSystem.treatedPatients := rfl

theorem treatNextInLine_nil (w : World) (t : Int) (h : w.erSystem.patientQueue = []) :
    treatNextInLine w t = { w with cout := w.cout ++ [Line.queueEmptyNoOneLeft] } := by
  unfold treatNextInLine
  rw [h]
  rfl

theorem treatNextInLine_cons (w : World) (t : Int) (h : w.erSystem.patientQueue ≠ []) :
    treatNextInLine w t =
      { w with
        erSystem :=
          { patientQueue := pqPop CompareERPatients w.erSystem.patientQueue
            treatedPatients := w.erSystem.treatedPatients ++
              [(deref w.erSystem.patientQueue 0, t)] }
        cout := w.cout ++ [Line.treatingPatient (deref w.erSystem.patientQueue 0)] } := by
  unfold treatNextInLine
  have he : pqEmpty w.erSystem.patientQueue = false := by
    unfold pqEmpty
    cases hq : w.erSystem.patientQueue with
    | nil => exact absurd hq h
    | cons a t => rfl
  rw [he, pqTop_eq _ h]
  simp

theorem showQueueStatus_erSystem (w : World) : (showQueueStatus w).erSystem = w.erSystem := by
  unfold showQueueStatus
  split <;> rfl

theorem showTreatedLog_erSystem (w : World) : (showTreatedLog w).erSystem = w.erSystem := by
  unfold showTreatedLog
  split <;> rfl

theorem step_isHeap (w : World) (op : Op)
    (h : IsHeap CompareERPatients w.erSystem.patientQueue) :
    IsHeap CompareERPatients (step w op).erSystem.patientQueue := by
  cases op with
  | admitNewPatient name injury checkIn =>
    exact pqPush_isHeap CompareERPatients priorityKey compare_iff_key _ _ h
  | treatNextInLine t =>
    show IsHeap CompareERPatients (treatNextInLine w t).erSystem.patientQueue
    by_cases hq : w.erSystem.patientQueue = []
    · rw [treatNextInLine_nil w t hq]; exact h
    · rw [treatNextInLine_cons w t hq]
      exact pqPop_isHeap CompareERPatients priorityKey compare_iff_key _ h
  | showQueueStatus =>
    show IsHeap CompareERPatients (showQueueStatus w).erSystem.patientQueue
    rw [showQueueStatus_erSystem]; exact h
  | showTreatedLog =>
    show IsHeap CompareERPatients (showTreatedLog w).erSystem.patientQueue
    rw [showTreatedLog_erSystem]; exact h
  | isQueueEmpty => exact h

theorem run_isHeap : ∀ (ops : List Op) (w : World),
    IsHeap CompareERPatients w.erSystem.patientQueue →
    IsHeap CompareERPatients (run w ops).erSystem.patientQueue
  | [], _, h => h
  | op :: ops, w, h => run_isHeap ops (step w op) (step_isHeap w op h)

theorem reachable_isHeap (ops : List Op) :
    IsHeap CompareERPatients (run initWorld ops).erSystem.patientQueue :=
  run_isHeap ops initWorld (isHeap_nil _)

theorem run_append (w : World) (ops ops2 : List Op) :
    run w (ops ++ ops2) = run (run w ops) ops2 := by
  unfold run
  exact List.foldl_append _ _ _ _

/-! ## Draining a queue -/

theorem treatedBefore_iff_key (p q : ERPatient) :
    TreatedBefore p q ↔ priorityKey p ≤ priorityKey q := by
  rw [key_le_iff]
  unfold TreatedBefore
  constructor
  · rintro ⟨h1, h2⟩
    exact ⟨by omega, fun ⟨e, l⟩ => by have := h2 e.symm; omega⟩
  · rintro ⟨h1, h2⟩
    refine ⟨by omega, fun e => ?_⟩
    by_contra hlt
    exact h2 ⟨e.symm, by omega⟩

theorem drainTempQueue_cons (fuel : Nat) (q : List ERPatient) (h : q ≠ []) :
    drainTempQueue (fuel + 1) q =
      deref q 0 :: drainTempQueue fuel (pqPop CompareERPatients q) := by
  match q, h with
  | a :: t, _ => simp [drainTempQueue, pqEmpty, pqTop, deref]

theorem drainTempQueue_nil (fuel : Nat) : drainTempQueue fuel [] = [] := by
  cases fuel <;> rfl

theorem drainTempQueue_spec : ∀ (fuel : Nat) (q : List ERPatient),
    IsHeap CompareERPatients q → q.length ≤ fuel →
    (drainTempQueue fuel q).Perm q ∧ List.Pairwise TreatedBefore (drainTempQueue fuel q)
  | 0, q, _, hlen => by
    have : q = [] := List.length_eq_zero.1 (by omega)
    subst this
    exact ⟨List.Perm.refl _, List.Pairwise.nil⟩
  | fuel + 1, q, hq, hlen => by
    by_cases hne : q = []
    · subst hne
      rw [drainTempQueue_nil]
      exact ⟨List.Perm.refl _, List.Pairwise.nil⟩
    · rw [drainTempQueue_cons fuel q hne]
      have hpop := pqPop_isHeap CompareERPatients priorityKey compare_iff_key q hq
      have hpl := pqPop_length CompareERPatients priorityKey compare_iff_key q hq
      have hperm := pqPop_perm CompareERPatients priorityKey compare_iff_key q hq hne
      obtain ⟨ih1, ih2⟩ := drainTempQueue_spec fuel (pqPop CompareERPatients q) hpop
        (by omega)
      refine ⟨(ih1.cons _).trans hperm.symm, List.Pairwise.cons ?_ ih2⟩
      intro y hy
      rw [treatedBefore_iff_key]
      apply isHeap_top_le CompareERPatients priorityKey compare_iff_key q hq
      exact hperm.symm.subset (List.mem_cons_of_mem _ (ih1.subset hy))

theorem treatUntilEmpty_log : ∀ (fuel : Nat) (w : World) (clock : Nat → Int),
    (treatUntilEmpty fuel w clock).erSystem.treatedPatients.map Prod.fst =
      w.erSystem.treatedPatients.map Prod.fst ++ drainTempQueue fuel w.erSystem.patientQueue
  | 0, w, clock => by simp [treatUntilEmpty, drainTempQueue]
  | fuel + 1, w, clock => by
    by_cases hne : w.erSystem.patientQueue = []
    · have he : isQueueEmpty w = true := by unfold isQueueEmpty; rw [hne]; rfl
      simp only [treatUntilEmpty]
      rw [if_pos he, hne, drainTempQueue_nil]
      simp
    · have he : ¬ isQueueEmpty w = true := by
        unfold isQueueEmpty pqEmpty
        cases hq : w.erSystem.patientQueue with
        | nil => exact absurd hq hne
        | cons a t => simp
      simp only [treatUntilEmpty]
      rw [if_neg he, treatUntilEmpty_log fuel, drainTempQueue_cons fuel _ hne,
        treatNextInLine_cons w _ hne]
      simp

theorem treatUntilEmpty_queue : ∀ (fuel : Nat) (w : World) (clock : Nat → Int),
    IsHeap CompareERPatients w.erSystem.patientQueue → w.erSystem.patientQueue.length ≤ fuel →
    (treatUntilEmpty fuel w clock).erSystem.patientQueue = []
  | 0, w, clock, _, hlen => by
    simp only [treatUntilEmpty]
    exact List.length_eq_zero.1 (by omega)
  | fuel + 1, w, clock, hq, hlen => by
    by_cases hne : w.erSystem.patientQueue = []
    · have he : isQueueEmpty w = true := by unfold isQueueEmpty; rw [hne]; rfl
      simp only [treatUntilEmpty]
      rw [if_pos he]; exact hne
    · have he : ¬ isQueueEmpty w = true := by
        unfold isQueueEmpty pqEmpty
        cases hq : w.erSystem.patientQueue with
        | nil => exact absurd hq hne
        | cons a t => simp
      simp only [treatUntilEmpty]
      rw [if_neg he]
      apply treatUntilEmpty_queue fuel
      · rw [treatNextInLine_cons w _ hne]
        exact pqPop_isHeap CompareERPatients priorityKey compare_iff_key _ hq
      · rw [treatNextInLine_cons w _ hne]
        simp only []
        rw [pqPop_length CompareERPatients priorityKey compare_iff_key _ hq]
        omega

/-! ## Lemmas on call sequences -/

theorem isQueueEmpty_eq_true_iff (w : World) :
    isQueueEmpty w = true ↔ w.erSystem.patientQueue = [] := by
  unfold isQueueEmpty pqEmpty
  exact List.isEmpty_iff

theorem step_log (w : World) (op : Op) :
    (step w op).erSystem.treatedPatients = w.erSystem.treatedPatients ++ treatedBy w op := by
  cases op with
  | admitNewPatient name injury checkIn => simp [step, treatedBy, admitNewPatient_log]
  | treatNextInLine t =>
    show (treatNextInLine w t).erSystem.treatedPatients = _
    by_cases hq : w.erSystem.patientQueue = []
    · rw [treatNextInLine_nil w t hq]
      simp [treatedBy, hq, pqTop]
    · rw [treatNextInLine_cons w t hq]
      simp [treatedBy, pqTop_eq _ hq]
  | showQueueStatus =>
    show (showQueueStatus w).erSystem.treatedPatients = _
    rw [showQueueStatus_erSystem]; simp [treatedBy]
  | showTreatedLog =>
    show (showTreatedLog w).erSystem.treatedPatients = _
    rw [showTreatedLog_erSystem]; simp [treatedBy]
  | isQueueEmpty => simp [step, treatedBy]

theorem treatedBy_length (w : World) (op : Op) :
    (treatedBy w op).length = removesPatient w op := by
  cases op with
  | treatNextInLine t =>
    by_cases hq : w.erSystem.patientQueue = []
    · simp [treatedBy, removesPatient, hq, pqTop, isQueueEmpty, pqEmpty]
    · have he : ¬ isQueueEmpty w = true := fun h => hq ((isQueueEmpty_eq_true_iff w).1 h)
      simp [treatedBy, removesPatient, pqTop_eq _ hq, he]
  | _ => rfl

theorem run_log : ∀ (ops : List Op) (w : World),
    (run w ops).erSystem.treatedPatients = w.erSystem.treatedPatients ++ treatedTrace w ops
  | [], w => by simp [run, treatedTrace]
  | op :: ops, w => by
    show (run (step w op) ops).erSystem.treatedPatients = _
    rw [run_log ops (step w op), step_log, treatedTrace, List.append_assoc]

theorem treatedTrace_length : ∀ (ops : List Op) (w : World),
    (treatedTrace w ops).length = treatedCount w ops
  | [], _ => rfl
  | op :: ops, w => by
    rw [treatedTrace, treatedCount, List.length_append, treatedBy_length,
      treatedTrace_length ops (step w op)]

theorem step_size (w : World) (op : Op)
    (h : IsHeap CompareERPatients w.erSystem.patientQueue) :
    (treatedBy w op).length + pqSize (step w op).erSystem.patientQueue =
      pqSize w.erSystem.patientQueue + admittedCount [op] := by
  unfold pqSize
  cases op with
  | admitNewPatient name injury checkIn =>
    show _ + (pqPush CompareERPatients _ _).length = _
    rw [pqPush_length]
    simp [treatedBy, admittedCount]
  | treatNextInLine t =>
    show _ + (treatNextInLine w t).erSystem.patientQueue.length = _
    by_cases hq : w.erSystem.patientQueue = []
    · rw [treatNextInLine_nil w t hq]
      simp [treatedBy, hq, pqTop, admittedCount]
    · rw [treatNextInLine_cons w t hq]
      have hpos : 0 < w.erSystem.patientQueue.length := List.length_pos.2 hq
      simp only [treatedBy, pqTop_eq _ hq, admittedCount, List.length_singleton]
      rw [pqPop_length CompareERPatients priorityKey compare_iff_key _ h]
      omega
  | showQueueStatus =>
    show _ + (showQueueStatus w).erSystem.patientQueue.length = _
    rw [showQueueStatus_erSystem]; simp [treatedBy, admittedCount]
  | showTreatedLog =>
    show _ + (showTreatedLog w).erSystem.patientQueue.length = _
    rw [showTreatedLog_erSystem]; simp [treatedBy, admittedCount]
  | isQueueEmpty => simp [step, treatedBy, admittedCount]

theorem admittedCount_cons (op : Op) (ops : List Op) :
    admittedCount (op :: ops) = admittedCount [op] + admittedCount ops := by
  cases op <;> simp [admittedCount]; omega

theorem run_conservation : ∀ (ops : List Op) (w : World),
    IsHeap CompareERPatients w.erSystem.patientQueue →
    treatedCount w ops + pqSize (run w ops).erSystem.patientQueue =
      pqSize w.erSystem.patientQueue + admittedCount ops
  | [], w, _ => by simp [treatedCount, run, admittedCount]
  | op :: ops, w, h => by
    have ih := run_conservation ops (step w op) (step_isHeap w op h)
    have hs := step_size w op h
    rw [treatedBy_length] at hs
    rw [admittedCount_cons]
    show _ + pqSize (run (step w op) ops).erSystem.patientQueue = _
    rw [treatedCount]
    omega

theorem showQueueStatus_cout (w : World) :
    (showQueueStatus w).cout = w.cout ++
      (if w.erSystem.patientQueue = [] then [Line.queueEmptyAllGood]
       else [Line.queueHeader] ++
         (drainTempQueue (pqSize w.erSystem.patientQueue) w.erSystem.patientQueue).map
           Line.queuePatient ++ [Line.queueFooter]) := by
  unfold showQueueStatus
  by_cases hq : w.erSystem.patientQueue = []
  · have he : pqEmpty w.erSystem.patientQueue = true := by rw [hq]; rfl
    rw [if_pos he, if_pos hq]
  · have he : ¬ pqEmpty w.erSystem.patientQueue = true := fun h =>
      hq ((isQueueEmpty_eq_true_iff w).1 h)
    rw [if_neg he, if_neg hq]
    simp

theorem showQueueStatus_injuryList (w : World) :
    (showQueueStatus w).injuryList = w.injuryList := by
  unfold showQueueStatus
  split <;> rfl

theorem run_arrival_le : ∀ (ops : List Op) (w : World) (seen : List Int),
    IsHeap CompareERPatients w.erSystem.patientQueue →
    (∀ p ∈ w.erSystem.patientQueue, p.checkInTime ∈ seen) →
    (∀ r ∈ w.erSystem.treatedPatients, r.1.checkInTime ≤ r.2) →
    clocksAfterArrivals seen ops = true →
    ∀ r ∈ (run w ops).erSystem.treatedPatients, r.1.checkInTime ≤ r.2
  | [], _, _, _, _, hl, _ => hl
  | Op.admitNewPatient name injury checkIn :: ops, w, seen, hh, hq, hl, hc => by
    apply run_arrival_le ops (step w (Op.admitNewPatient name injury checkIn)) (checkIn :: seen)
      (step_isHeap w _ hh) _ hl hc
    intro p hp
    have hp' := (pqPush_perm CompareERPatients _ _).subset hp
    rcases List.mem_cons.1 hp' with rfl | hmem
    · exact List.mem_cons_self _ _
    · exact List.mem_cons_of_mem _ (hq p hmem)
  | Op.treatNextInLine t :: ops, w, seen, hh, hq, hl, hc => by
    simp only [clocksAfterArrivals, Bool.and_eq_true, List.all_eq_true, decide_eq_true_eq] at hc
    apply run_arrival_le ops (step w (Op.treatNextInLine t)) seen (step_isHeap w _ hh) _ _ hc.2
    · show ∀ p ∈ (treatNextInLine w t).erSystem.patientQueue, p.checkInTime ∈ seen
      by_cases hne : w.erSystem.patientQueue = []
      · rw [treatNextInLine_nil w t hne]; exact hq
      · rw [treatNextInLine_cons w t hne]
        intro p hp
        apply hq
        exact (pqPop_perm CompareERPatients priorityKey compare_iff_key _ hh hne).symm.subset
          (List.mem_cons_of_mem _ hp)
    · show ∀ r ∈ (treatNextInLine w t).erSystem.treatedPatients, r.1.checkInTime ≤ r.2
      by_cases hne : w.erSystem.patientQueue = []
      · rw [treatNextInLine_nil w t hne]; exact hl
      · rw [treatNextInLine_cons w t hne]
        intro r hr
        rcases List.mem_append.1 hr with hold | hnew
        · exact hl r hold
        · rw [List.mem_singleton] at hnew
          subst hnew
          exact hc.1 _ (hq _ (deref_mem _ 0 (List.length_pos.2 hne)))
  | Op.showQueueStatus :: ops, w, seen, hh, hq, hl, hc => by
    apply run_arrival_le ops (step w Op.showQueueStatus) seen (step_isHeap w _ hh) _ _ hc
    · show ∀ p ∈ (showQueueStatus w).erSystem.patientQueue, p.checkInTime ∈ seen
      rw [showQueueStatus_erSystem]; exact hq
    · show ∀ r ∈ (showQueueStatus w).erSystem.treatedPatients, r.1.checkInTime ≤ r.2
      rw [showQueueStatus_erSystem]; exact hl
  | Op.showTreatedLog :: ops, w, seen, hh, hq, hl, hc => by
    apply run_arrival_le ops (step w Op.showTreatedLog) seen (step_isHeap w _ hh) _ _ hc
    · show ∀ p ∈ (showTreatedLog w).erSystem.patientQueue, p.checkInTime ∈ seen
      rw [showTreatedLog_erSystem]; exact hq
    · show ∀ r ∈ (showTreatedLog w).erSystem.treatedPatients, r.1.checkInTime ≤ r.2
      rw [showTreatedLog_erSystem]; exact hl
  | Op.isQueueEmpty :: ops, w, seen, hh, hq, hl, hc =>
    run_arrival_le ops w seen hh hq hl hc

theorem run_arrivals_log : ∀ (arrivals : List (String × String × Int)) (w : World),
    (run w (arrivals.map fun a => Op.admitNewPatient a.1 a.2.1 a.2.2)).erSystem.treatedPatients =
      w.erSystem.treatedPatients
  | [], _ => rfl
  | a :: arrivals, w => by
    show (run (admitNewPatient w a.1 a.2.1 a.2.2) _).erSystem.treatedPatients = _
    rw [run_arrivals_log arrivals, admitNewPatient_log]

theorem run_arrivals_size : ∀ (arrivals : List (String × String × Int)) (w : World),
    (run w (arrivals.map fun a =>
      Op.admitNewPatient a.1 a.2.1 a.2.2)).erSystem.patientQueue.length =
      w.erSystem.patientQueue.length + arrivals.length
  | [], _ => rfl
  | a :: arrivals, w => by
    show (run (admitNewPatient w a.1 a.2.1 a.2.2) _).erSystem.patientQueue.length = _
    rw [run_arrivals_size arrivals, admitNewPatient_queue, pqPush_length, List.length_cons]
    omega

/-! ## Frame of the table -/

theorem treatNextInLine_injuryList (w : World) (t : Int) :
    (treatNextInLine w t).injuryList = w.injuryList := by
  by_cases hq : w.erSystem.patientQueue = []
  · rw [treatNextInLine_nil w t hq]
  · rw [treatNextInLine_cons w t hq]

theorem showTreatedLog_injuryList (w : World) :
    (showTreatedLog w).injuryList = w.injuryList := by
  unfold showTreatedLog
  split <;> rfl

theorem admitNewPatient_of_key (w : World) (name injury : String) (checkIn : Int) (v : Int)
    (hs : MapSorted w.injuryList) (hkey : mapFind w.injuryList injury = some v) :
    (admitNewPatient w name injury checkIn).injuryList = w.injuryList ∧
    (admitNewPatient w name injury checkIn).erSystem.patientQueue =
      pqPush CompareERPatients w.erSystem.patientQueue ⟨name, injury, v, checkIn⟩ := by
  unfold admitNewPatient
  simp only []
  rw [mapSubscript_of_key _ _ _ hs hkey]
  exact ⟨rfl, rfl⟩

theorem step_sorted (w : World) (op : Op) (hs : MapSorted w.injuryList) :
    MapSorted (step w op).injuryList := by
  cases op with
  | admitNewPatient name injury checkIn => exact mapSubscript_sorted _ _ hs
  | treatNextInLine t =>
    show MapSorted (treatNextInLine w t).injuryList
    rw [treatNextInLine_injuryList]; exact hs
  | showQueueStatus =>
    show MapSorted (showQueueStatus w).injuryList
    rw [showQueueStatus_injuryList]; exact hs
  | showTreatedLog =>
    show MapSorted (showTreatedLog w).injuryList
    rw [showTreatedLog_injuryList]; exact hs
  | isQueueEmpty => exact hs

theorem run_sorted : ∀ (ops : List Op) (w : World), MapSorted w.injuryList →
    MapSorted (run w ops).injuryList
  | [], _, h => h
  | op :: ops, w, h => run_sorted ops (step w op) (step_sorted w op h)

theorem reachable_sorted (ops : List Op) : MapSorted (run initWorld ops).injuryList :=
  run_sorted ops initWorld injuryList_sorted

/-- The table is written by no call other than an admission whose injury is not a key. -/
theorem step_injuryList_unchanged (ops : List Op) (op : Op)
    (hop : ∀ name injury checkIn, op = Op.admitNewPatient name injury checkIn →
      mapFind (run initWorld ops).injuryList injury ≠ none) :
    (step (run initWorld ops) op).injuryList = (run initWorld ops).injuryList := by
  cases op with
  | admitNewPatient name injury checkIn =>
    have h := hop name injury checkIn rfl
    cases hf : mapFind (run initWorld ops).injuryList injury with
    | none => exact absurd hf h
    | some v => exact (admitNewPatient_of_key _ name injury checkIn v (reachable_sorted ops) hf).1
  | treatNextInLine t => exact treatNextInLine_injuryList _ t
  | showQueueStatus => exact showQueueStatus_injuryList _
  | showTreatedLog => exact showTreatedLog_injuryList _
  | isQueueEmpty => rfl

/-! ## The claims -/

/-- C1: in every state reached from the initial one by calls of the handler, if the queue
is non-empty then `treatNextInLine` removes a patient `p` held just before the
call (it is logged with the clock reading, and the queue before is `p` plus the
queue after), and no held patient has a lower severity than `p`, nor the same
severity with an earlier check-in time. -/
theorem treatNextInLine_removes_highest_priority (ops : List Op) (treatmentTime : Int)
    (hne : (run initWorld ops).erSystem.patientQueue ≠ []) :
    ∃ p, p ∈ (run initWorld ops).erSystem.patientQueue ∧
      (treatNextInLine (run initWorld ops) treatmentTime).erSystem.treatedPatients =
        (run initWorld ops).erSystem.treatedPatients ++ [(p, treatmentTime)] ∧
      (run initWorld ops).erSystem.patientQueue.Perm
        (p :: (treatNextInLine (run initWorld ops) treatmentTime).erSystem.patientQueue) ∧
      ∀ q ∈ (run initWorld ops).erSystem.patientQueue,
        ¬ q.conditionSeverity < p.conditionSeverity ∧
        ¬ (q.conditionSeverity = p.conditionSeverity ∧ q.checkInTime < p.checkInTime) := by
  have hh := reachable_isHeap ops
  refine ⟨deref (run initWorld ops).erSystem.patientQueue 0,
    deref_mem _ 0 (List.length_pos.2 hne), ?_, ?_, ?_⟩
  · rw [treatNextInLine_cons _ _ hne]
  · rw [treatNextInLine_cons _ _ hne]
    exact pqPop_perm CompareERPatients priorityKey compare_iff_key _ hh hne
  · intro q hq
    rw [← key_le_iff]
    exact isHeap_top_le CompareERPatients priorityKey compare_iff_key _ hh q hq

/-- Witness for C1: after admitting A, B and C the queue is non-empty and the statement
applies. -/
theorem treatNextInLine_removes_highest_priority_witness :
    (run initWorld (arrivalsABC.map admissionOp)).erSystem.patientQueue ≠ [] ∧
    ∃ p, p ∈ (run initWorld (arrivalsABC.map admissionOp)).erSystem.patientQueue ∧
      (treatNextInLine (run initWorld (arrivalsABC.map admissionOp)) 100).erSystem.treatedPatients =
        (run initWorld (arrivalsABC.map admissionOp)).erSystem.treatedPatients ++ [(p, 100)] ∧
      (run initWorld (arrivalsABC.map admissionOp)).erSystem.patientQueue.Perm
        (p :: (treatNextInLine (run initWorld (arrivalsABC.map admissionOp))
          100).erSystem.patientQueue) ∧
      ∀ q ∈ (run initWorld (arrivalsABC.map admissionOp)).erSystem.patientQueue,
        ¬ q.conditionSeverity < p.conditionSeverity ∧
        ¬ (q.conditionSeverity = p.conditionSeverity ∧ q.checkInTime < p.checkInTime) :=
  ⟨by decide,
    treatNextInLine_removes_highest_priority (arrivalsABC.map admissionOp) 100 (by decide)⟩

/-- C2: after any finite sequence of admissions from the empty handler, treating until the
queue is empty empties the queue, treats as many patients as were admitted,
and the treated patients come in non-decreasing severity and, at equal
severity, non-decreasing check-in time (between any two of them, hence between
consecutive ones).  Admitting A (severity 2, t = 10), B (severity 1, t = 20),
C (severity 1, t = 5) and treating three times yields C, B, A. -/
theorem extraction_order_after_admissions :
    (∀ (arrivals : List (String × String × Int)) (clock : Nat → Int),
      (treatUntilEmpty (pqSize (run initWorld (arrivals.map admissionOp)).erSystem.patientQueue)
        (run initWorld (arrivals.map admissionOp)) clock).erSystem.patientQueue = [] ∧
      (treatUntilEmpty (pqSize (run initWorld (arrivals.map admissionOp)).erSystem.patientQueue)
        (run initWorld (arrivals.map admissionOp)) clock).erSystem.treatedPatients.length
          = arrivals.length ∧
      List.Pairwise (fun r s => TreatedBefore r.1 s.1)
        (treatUntilEmpty (pqSize (run initWorld (arrivals.map admissionOp)).erSystem.patientQueue)
          (run initWorld (arrivals.map admissionOp)) clock).erSystem.treatedPatients) ∧
    (∀ t1 t2 t3 : Int,
      (treatNextInLine (treatNextInLine (treatNextInLine
        (run initWorld (arrivalsABC.map admissionOp)) t1) t2) t3).erSystem.treatedPatients =
          [(⟨"C", "Stroke", 1, 5⟩, t1), (⟨"B", "Stroke", 1, 20⟩, t2),
            (⟨"A", "Major Bleeding", 2, 10⟩, t3)]) := by
  refine ⟨?_, ?_⟩
  · intro arrivals clock
    have hh := reachable_isHeap (arrivals.map admissionOp)
    have hlog := treatUntilEmpty_log
      (pqSize (run initWorld (arrivals.map admissionOp)).erSystem.patientQueue)
      (run initWorld (arrivals.map admissionOp)) clock
    have hspec := drainTempQueue_spec
      (pqSize (run initWorld (arrivals.map admissionOp)).erSystem.patientQueue)
      (run initWorld (arrivals.map admissionOp)).erSystem.patientQueue hh (le_refl _)
    have hl0 : (run initWorld (arrivals.map admissionOp)).erSystem.treatedPatients = [] :=
      run_arrivals_log arrivals initWorld
    have hsz : (run initWorld (arrivals.map admissionOp)).erSystem.patientQueue.length
        = arrivals.length := by
      have := run_arrivals_size arrivals initWorld
      simpa [initWorld, admissionOp] using this
    rw [hl0, List.map_nil, List.nil_append] at hlog
    refine ⟨treatUntilEmpty_queue _ _ clock hh (le_refl _), ?_, ?_⟩
    · have := congrArg List.length hlog
      rw [List.length_map, hspec.1.length_eq, hsz] at this
      exact this
    · have := hspec.2
      rw [← hlog, List.pairwise_map] at this
      exact this
  · intro t1 t2 t3
    with_unfolding_all rfl

/-- C3, counterexample: "Not A Real Injury" is not a key of the table, yet admitting a
patient with it inserts a patient: the queue size goes from 0 to 1. -/
theorem unknown_injury_not_rejected :
    mapFind initWorld.injuryList "Not A Real Injury" = none ∧
    pqSize (admitNewPatient initWorld "X" "Not A Real Injury" 0).erSystem.patientQueue ≠
      pqSize initWorld.erSystem.patientQueue := by
  decide

/-- C3, amended: `admitNewPatient` has no failure path.  For every injury name, a key of the
table or not, it completes in the same way: it reports the patient with the
given name, injury and arrival time as added, the queue size grows by exactly
one, and the treatment log is unchanged. -/
theorem admit_completes_for_any_injury (w : World) (name injury : String) (checkIn : Int) :
    (∃ p : ERPatient, p.fullName = name ∧ p.injuryType = injury ∧ p.checkInTime = checkIn ∧
      (admitNewPatient w name injury checkIn).cout = w.cout ++ [Line.addedPatient p]) ∧
    pqSize (admitNewPatient w name injury checkIn).erSystem.patientQueue =
      pqSize w.erSystem.patientQueue + 1 ∧
    (admitNewPatient w name injury checkIn).erSystem.treatedPatients =
      w.erSystem.treatedPatients := by
  refine ⟨⟨⟨name, injury, (mapSubscript w.injuryList injury).2, checkIn⟩,
    rfl, rfl, rfl, rfl⟩, ?_, rfl⟩
  unfold pqSize
  rw [admitNewPatient_queue, pqPush_length]

/-- C4: at every point of every sequence of calls from the empty handler, the number of
`treatNextInLine` calls that removed a patient plus the queue size equals the
number of admissions; at that point an admission raises the queue size by
exactly one, and a `treatNextInLine` call lowers it by exactly one unless the
queue is empty. -/
theorem conservation_of_patients (ops : List Op) (name injury : String)
    (checkIn treatmentTime : Int) :
    treatedCount initWorld ops + pqSize (run initWorld ops).erSystem.patientQueue =
      admittedCount ops ∧
    pqSize (admitNewPatient (run initWorld ops) name injury checkIn).erSystem.patientQueue =
      pqSize (run initWorld ops).erSystem.patientQueue + 1 ∧
    (isQueueEmpty (run initWorld ops) = true ∨
      pqSize (treatNextInLine (run initWorld ops) treatmentTime).erSystem.patientQueue + 1 =
        pqSize (run initWorld ops).erSystem.patientQueue) := by
  have hh := reachable_isHeap ops
  refine ⟨?_, ?_, ?_⟩
  · have := run_conservation ops initWorld (isHeap_nil _)
    simpa [initWorld, pqSize] using this
  · unfold pqSize
    rw [admitNewPatient_queue, pqPush_length]
  · by_cases hq : (run initWorld ops).erSystem.patientQueue = []
    · exact Or.inl ((isQueueEmpty_eq_true_iff _).2 hq)
    · right
      unfold pqSize
      rw [treatNextInLine_cons _ _ hq]
      simp only []
      rw [pqPop_length CompareERPatients priorityKey compare_iff_key _ hh]
      have := List.length_pos.2 hq
      omega

/-- C5: `treatNextInLine` on an empty queue only prints the "queue is empty" line: the
queue is still empty (size 0) and the treatment log and the table are
unchanged. -/
theorem treat_on_empty_queue_is_noop (w : World) (treatmentTime : Int)
    (hempty : w.erSystem.patientQueue = []) :
    treatNextInLine w treatmentTime = { w with cout := w.cout ++ [Line.queueEmptyNoOneLeft] } ∧
    (treatNextInLine w treatmentTime).erSystem.patientQueue = [] ∧
    pqSize (treatNextInLine w treatmentTime).erSystem.patientQueue = 0 ∧
    (treatNextInLine w treatmentTime).erSystem.treatedPatients = w.erSystem.treatedPatients := by
  rw [treatNextInLine_nil w treatmentTime hempty]
  refine ⟨rfl, hempty, ?_, rfl⟩
  show pqSize w.erSystem.patientQueue = 0
  rw [hempty]; rfl

/-- Witness for C5, at the initial state. -/
theorem treat_on_empty_queue_is_noop_witness :
    initWorld.erSystem.patientQueue = [] ∧
    treatNextInLine initWorld 7 =
      { initWorld with cout := initWorld.cout ++ [Line.queueEmptyNoOneLeft] } ∧
    (treatNextInLine initWorld 7).erSystem.patientQueue = [] ∧
    pqSize (treatNextInLine initWorld 7).erSystem.patientQueue = 0 ∧
    (treatNextInLine initWorld 7).erSystem.treatedPatients =
      initWorld.erSystem.treatedPatients :=
  ⟨rfl, treat_on_empty_queue_is_noop initWorld 7 rfl⟩

/-- C6: for every call of the handler the log before is a prefix of the log after; the log
changes only by a `treatNextInLine` call on a non-empty queue, which appends
exactly one record, and every such call does; after a sequence of calls from
the empty handler the log has as many records as treatments that removed a
patient, and it is the list of those treatments in the order they happened. -/
theorem treatment_log_append_only (w : World) (op : Op) (ops : List Op) :
    w.erSystem.treatedPatients <+: (step w op).erSystem.treatedPatients ∧
    ((step w op).erSystem.treatedPatients = w.erSystem.treatedPatients ∨
      ∃ t p, op = Op.treatNextInLine t ∧ w.erSystem.patientQueue ≠ [] ∧
        (step w op).erSystem.treatedPatients = w.erSystem.treatedPatients ++ [(p, t)]) ∧
    (((∃ t, op = Op.treatNextInLine t) ∧ w.erSystem.patientQueue ≠ []) ↔
      (step w op).erSystem.treatedPatients.length = w.erSystem.treatedPatients.length + 1) ∧
    (run initWorld ops).erSystem.treatedPatients.length = treatedCount initWorld ops ∧
    (run initWorld ops).erSystem.treatedPatients = treatedTrace initWorld ops := by
  refine ⟨?_, ?_, ?_, ?_, ?_⟩
  · rw [step_log]; exact List.prefix_append _ _
  · rw [step_log]
    cases op with
    | treatNextInLine t =>
      by_cases hq : w.erSystem.patientQueue = []
      · left; simp [treatedBy, hq, pqTop]
      · right
        exact ⟨t, deref w.erSystem.patientQueue 0, rfl, hq, by simp [treatedBy, pqTop_eq _ hq]⟩
    | _ => left; simp [treatedBy]
  · rw [step_log, List.length_append, treatedBy_length]
    cases op with
    | treatNextInLine t =>
      by_cases hq : w.erSystem.patientQueue = []
      · have he := (isQueueEmpty_eq_true_iff w).2 hq
        simp [removesPatient, he, hq]
      · have he : ¬ isQueueEmpty w = true := fun h => hq ((isQueueEmpty_eq_true_iff w).1 h)
        simp [removesPatient, he, hq]
    | _ => simp [removesPatient]
  · rw [run_log, ← treatedTrace_length]; simp [initWorld]
  · rw [run_log]; simp [initWorld]

/-- C7, the defect: admitting a patient whose injury is not a key of the table writes to the
table.  "Not A Real Injury" is absent from `injuryList` before the call and is
a key with severity 0 after it. -/
theorem admit_unknown_injury_writes_table :
    mapFind initWorld.injuryList "Not A Real Injury" = none ∧
    mapFind (admitNewPatient initWorld "X" "Not A Real Injury" 0).injuryList
      "Not A Real Injury" = some 0 ∧
    (admitNewPatient initWorld "X" "Not A Real Injury" 0).injuryList ≠ initWorld.injuryList := by
  decide

/-- C8, counterexample: a patient admitted with arrival time 100 and treated at clock
reading 50 leaves a record whose treatment time is before the arrival time. -/
theorem treatment_before_arrival_recorded :
    (run initWorld [Op.admitNewPatient "X" "Stroke" 100,
      Op.treatNextInLine 50]).erSystem.treatedPatients =
      [(⟨"X", "Stroke", 1, 100⟩, 50)] ∧
    ¬ ∀ r ∈ (run initWorld [Op.admitNewPatient "X" "Stroke" 100,
        Op.treatNextInLine 50]).erSystem.treatedPatients,
      r.1.checkInTime ≤ r.2 := by
  decide

/-- C8, amended: if every clock reading taken by `treatNextInLine` is at or after the
arrival time of every patient admitted before that call, then every record
in the log has a treatment time at or after its patient's arrival time. -/
theorem treatment_not_before_arrival (ops : List Op)
    (hclock : clocksAfterArrivals [] ops = true) :
    ∀ r ∈ (run initWorld ops).erSystem.treatedPatients, r.1.checkInTime ≤ r.2 :=
  run_arrival_le ops initWorld [] (isHeap_nil _)
    (fun _ hp => absurd hp (List.not_mem_nil _)) (fun _ hr => absurd hr (List.not_mem_nil _))
    hclock

/-- Witness for the amended C8: two admissions and two treatments with later clock
readings. -/
theorem treatment_not_before_arrival_witness :
    clocksAfterArrivals []
      [Op.admitNewPatient "A" "Stroke" 10, Op.admitNewPatient "B" "Broken Bone" 5,
        Op.treatNextInLine 12, Op.treatNextInLine 30] = true ∧
    ∀ r ∈ (run initWorld
      [Op.admitNewPatient "A" "Stroke" 10, Op.admitNewPatient "B" "Broken Bone" 5,
        Op.treatNextInLine 12,
        Op.treatNextInLine 30]).erSystem.treatedPatients, r.1.checkInTime ≤ r.2 :=
  ⟨by decide, treatment_not_before_arrival _ (by decide)⟩

/-- C10: in every state reached from the initial one, `showQueueStatus` leaves the handler
and the table unchanged; after its header it prints the waiting patients,
each exactly once (as many lines as the queue size, a permutation of the
queue), in the very order in which treating until the queue is empty would
treat them, that is by non-decreasing severity and, at equal severity, by
non-decreasing check-in time; a second call prints the same lines again. -/
theorem showQueueStatus_ordered_view (ops : List Op) (clock : Nat → Int) :
    (showQueueStatus (run initWorld ops)).erSystem = (run initWorld ops).erSystem ∧
    (showQueueStatus (run initWorld ops)).injuryList = (run initWorld ops).injuryList ∧
    (showQueueStatus (run initWorld ops)).cout = (run initWorld ops).cout ++
      (if (run initWorld ops).erSystem.patientQueue = [] then [Line.queueEmptyAllGood]
       else [Line.queueHeader] ++
         (drainTempQueue (pqSize (run initWorld ops).erSystem.patientQueue)
           (run initWorld ops).erSystem.patientQueue).map Line.queuePatient ++
         [Line.queueFooter]) ∧
    (drainTempQueue (pqSize (run initWorld ops).erSystem.patientQueue)
      (run initWorld ops).erSystem.patientQueue).length =
        pqSize (run initWorld ops).erSystem.patientQueue ∧
    (drainTempQueue (pqSize (run initWorld ops).erSystem.patientQueue)
      (run initWorld ops).erSystem.patientQueue).Perm
        (run initWorld ops).erSystem.patientQueue ∧
    (treatUntilEmpty (pqSize (run initWorld ops).erSystem.patientQueue) (run initWorld ops)
        clock).erSystem.patientQueue = [] ∧
    (treatUntilEmpty (pqSize (run initWorld ops).erSystem.patientQueue) (run initWorld ops)
        clock).erSystem.treatedPatients.map Prod.fst =
      (run initWorld ops).erSystem.treatedPatients.map Prod.fst ++
        drainTempQueue (pqSize (run initWorld ops).erSystem.patientQueue)
          (run initWorld ops).erSystem.patientQueue ∧
    List.Pairwise TreatedBefore
      (drainTempQueue (pqSize (run initWorld ops).erSystem.patientQueue)
        (run initWorld ops).erSystem.patientQueue) ∧
    (showQueueStatus (showQueueStatus (run initWorld ops))).cout =
      (showQueueStatus (run initWorld ops)).cout ++
      (if (run initWorld ops).erSystem.patientQueue = [] then [Line.queueEmptyAllGood]
       else [Line.queueHeader] ++
         (drainTempQueue (pqSize (run initWorld ops).erSystem.patientQueue)
           (run initWorld ops).erSystem.patientQueue).map Line.queuePatient ++
         [Line.queueFooter]) := by
  have hh := reachable_isHeap ops
  obtain ⟨hperm, hsorted⟩ := drainTempQueue_spec
    (pqSize (run initWorld ops).erSystem.patientQueue)
    (run initWorld ops).erSystem.patientQueue hh (le_refl _)
  refine ⟨showQueueStatus_erSystem _, showQueueStatus_injuryList _, showQueueStatus_cout _,
    hperm.length_eq, hperm, treatUntilEmpty_queue _ _ clock hh (le_refl _),
    treatUntilEmpty_log _ _ clock, hsorted, ?_⟩
  rw [showQueueStatus_cout (showQueueStatus (run initWorld ops)), showQueueStatus_erSystem]

/-- C11: the relation of `CompareERPatients` is a strict weak ordering: it is irreflexive,
asymmetric and transitive, and incomparability (neither patient compares
greater than the other) is transitive and holds exactly when the two patients
have the same severity and the same check-in time. -/
theorem compare_strict_weak_ordering (a b c : ERPatient) :
    CompareERPatients a a = false ∧
    ¬ (CompareERPatients a b = true ∧ CompareERPatients b a = true) ∧
    (CompareERPatients a b = true ∧ CompareERPatients b c = true →
      CompareERPatients a c = true) ∧
    ((CompareERPatients a b = false ∧ CompareERPatients b a = false) ∧
        (CompareERPatients b c = false ∧ CompareERPatients c b = false) →
      (CompareERPatients a c = false ∧ CompareERPatients c a = false)) ∧
    ((CompareERPatients a b = false ∧ CompareERPatients b a = false) ↔
      (a.conditionSeverity = b.conditionSeverity ∧ a.checkInTime = b.checkInTime)) := by
  have hf : ∀ x y : ERPatient, CompareERPatients x y = false ↔
      priorityKey x ≤ priorityKey y := by
    intro x y
    rw [← Bool.not_eq_true, compare_iff_key, not_lt]
  have hinc : ∀ x y : ERPatient,
      (CompareERPatients x y = false ∧ CompareERPatients y x = false) ↔
        priorityKey x = priorityKey y := by
    intro x y
    rw [hf, hf]
    exact ⟨fun h => le_antisymm h.1 h.2, fun h => ⟨le_of_eq h, le_of_eq h.symm⟩⟩
  refine ⟨?_, ?_, ?_, ?_, ?_⟩
  · rw [hf]
  · rw [compare_iff_key, compare_iff_key]
    exact fun h => lt_asymm h.1 h.2
  · rw [compare_iff_key, compare_iff_key, compare_iff_key]
    exact fun h => lt_trans h.2 h.1
  · rw [hinc, hinc, hinc]
    exact fun h => h.1.trans h.2
  · rw [hinc]
    unfold priorityKey
    constructor
    · intro h
      have h2 := congrArg ofLex h
      simp only [ofLex_toLex, Prod.mk.injEq] at h2
      exact h2
    · rintro ⟨h1, h2⟩
      rw [h1, h2]

/-- Witness for C11: the transitivity clauses at three concrete patients, with their
premises checked. -/
theorem compare_strict_weak_ordering_witness :
    (CompareERPatients ⟨"A", "Broken Bone", 3, 7⟩ ⟨"B", "Stroke", 1, 9⟩ = true ∧
      CompareERPatients ⟨"B", "Stroke", 1, 9⟩ ⟨"C", "Sepsis", 1, 4⟩ = true) ∧
    CompareERPatients ⟨"A", "Broken Bone", 3, 7⟩ ⟨"C", "Sepsis", 1, 4⟩ = true :=
  ⟨by decide,
    (compare_strict_weak_ordering ⟨"A", "Broken Bone", 3, 7⟩ ⟨"B", "Stroke", 1, 9⟩
      ⟨"C", "Sepsis", 1, 4⟩).2.2.1 (by decide)⟩

/-! ## Severities read from the table -/

theorem mapSubscript_value (m : StdMap) (k : String) (hs : MapSorted m) :
    (mapSubscript m k).2 = (mapFind m k).getD 0 := by
  cases hf : mapFind m k with
  | none => rw [(mapSubscript_of_not_key m k hf).1]; rfl
  | some v => rw [mapSubscript_of_key m k v hs hf]; rfl

theorem mapSubscript_find_getD (m : StdMap) (k k2 : String) (hs : MapSorted m) :
    (mapFind (mapSubscript m k).1 k2).getD 0 = (mapFind m k2).getD 0 := by
  by_cases hk : k2 = k
  · subst hk
    cases hf : mapFind m k2 with
    | none => rw [(mapSubscript_of_not_key m k2 hf).2]; rfl
    | some v => rw [mapSubscript_of_key m k2 v hs hf, hf]
  · rw [mapSubscript_find_other m k k2 hk]

theorem step_table_getD (w : World) (op : Op) (hs : MapSorted w.injuryList) (k : String) :
    (mapFind (step w op).injuryList k).getD 0 = (mapFind w.injuryList k).getD 0 := by
  cases op with
  | admitNewPatient name injury checkIn => exact mapSubscript_find_getD _ injury k hs
  | treatNextInLine t =>
    show (mapFind (treatNextInLine w t).injuryList k).getD 0 = _
    rw [treatNextInLine_injuryList]
  | showQueueStatus =>
    show (mapFind (showQueueStatus w).injuryList k).getD 0 = _
    rw [showQueueStatus_injuryList]
  | showTreatedLog =>
    show (mapFind (showTreatedLog w).injuryList k).getD 0 = _
    rw [showTreatedLog_injuryList]
  | isQueueEmpty => rfl

theorem run_table_getD : ∀ (ops : List Op) (w : World), MapSorted w.injuryList →
    ∀ k, (mapFind (run w ops).injuryList k).getD 0 = (mapFind w.injuryList k).getD 0
  | [], _, _, _ => rfl
  | op :: ops, w, hs, k => by
    show (mapFind (run (step w op) ops).injuryList k).getD 0 = _
    rw [run_table_getD ops (step w op) (step_sorted w op hs) k, step_table_getD w op hs k]

/-- In every reachable state an admission stores the severity that the table as initialised
gives for the injury, and `0` when the injury is not one of its keys. -/
theorem reachable_admitted_severity (ops : List Op) (injury : String) :
    (mapSubscript (run initWorld ops).injuryList injury).2 =
      (mapFind injuryList injury).getD 0 := by
  rw [mapSubscript_value _ _ (reachable_sorted ops)]
  exact run_table_getD ops initWorld injuryList_sorted injury

/-- Every waiting patient of a reachable state carries the severity of its injury in the
table as initialised (`0` when the injury is not a key). -/
theorem run_queue_severity : ∀ (ops : List Op) (w : World),
    IsHeap CompareERPatients w.erSystem.patientQueue → MapSorted w.injuryList →
    (∀ k, (mapFind w.injuryList k).getD 0 = (mapFind injuryList k).getD 0) →
    (∀ q ∈ w.erSystem.patientQueue,
      q.conditionSeverity = (mapFind injuryList q.injuryType).getD 0) →
    ∀ q ∈ (run w ops).erSystem.patientQueue,
      q.conditionSeverity = (mapFind injuryList q.injuryType).getD 0
  | [], _, _, _, _, hq => hq
  | op :: ops, w, hh, hs, ht, hq => by
    apply run_queue_severity ops (step w op) (step_isHeap w op hh) (step_sorted w op hs)
    · intro k
      rw [step_table_getD w op hs k]; exact ht k
    · cases op with
      | admitNewPatient name injury checkIn =>
        intro q hmem
        rcases List.mem_cons.1 ((pqPush_perm CompareERPatients _ _).subset hmem) with h1 | h2
        · subst h1
          show (mapSubscript w.injuryList injury).2 = _
          rw [mapSubscript_value _ _ hs]; exact ht injury
        · exact hq q h2
      | treatNextInLine t =>
        show ∀ q ∈ (treatNextInLine w t).erSystem.patientQueue, _
        by_cases hne : w.erSystem.patientQueue = []
        · rw [treatNextInLine_nil w t hne]; exact hq
        · rw [treatNextInLine_cons w t hne]
          intro q hmem
          exact hq q ((pqPop_perm CompareERPatients priorityKey compare_iff_key _ hh
            hne).symm.subset (List.mem_cons_of_mem _ hmem))
      | showQueueStatus =>
        show ∀ q ∈ (showQueueStatus w).erSystem.patientQueue, _
        rw [showQueueStatus_erSystem]; exact hq
      | showTreatedLog =>
        show ∀ q ∈ (showTreatedLog w).erSystem.patientQueue, _
        rw [showTreatedLog_erSystem]; exact hq
      | isQueueEmpty => exact hq

theorem reachable_queue_severity (ops : List Op) :
    ∀ q ∈ (run initWorld ops).erSystem.patientQueue,
      q.conditionSeverity = (mapFind injuryList q.injuryType).getD 0 :=
  run_queue_severity ops initWorld (isHeap_nil _) injuryList_sorted (fun _ => rfl)
    (fun _ hq => absurd hq (List.not_mem_nil _))

theorem injuryList_severity_range : ∀ kv ∈ injuryList, 1 ≤ kv.2 ∧ kv.2 ≤ 5 := by
  decide

theorem mapFind_mem : ∀ (m : StdMap) (k : String) (v : Int), mapFind m k = some v →
    (k, v) ∈ m
  | [], _, _, h => by simp [mapFind] at h
  | (k', v') :: rest, k, v, h => by
    rw [mapFind_cons] at h
    by_cases hk : k = k'
    · rw [if_pos hk] at h
      cases h; subst hk
      exact List.mem_cons_self _ _
    · rw [if_neg hk] at h
      exact List.mem_cons_of_mem _ (mapFind_mem rest k v h)

/-! ## Conservation of patients as a multiset -/

theorem step_patients_perm (w : World) (op : Op)
    (hh : IsHeap CompareERPatients w.erSystem.patientQueue) :
    ((step w op).erSystem.patientQueue ++ (step w op).erSystem.treatedPatients.map Prod.fst).Perm
      ((w.erSystem.patientQueue ++ w.erSystem.treatedPatients.map Prod.fst) ++
        admittedTrace w [op]) := by
  cases op with
  | admitNewPatient name injury checkIn =>
    show (pqPush CompareERPatients w.erSystem.patientQueue _ ++ _).Perm _
    simp only [admittedTrace]
    refine ((pqPush_perm CompareERPatients _ _).append_right _).trans ?_
    rw [List.cons_append]
    exact (List.perm_append_singleton _ _).symm
  | treatNextInLine t =>
    show ((treatNextInLine w t).erSystem.patientQueue ++
      (treatNextInLine w t).erSystem.treatedPatients.map Prod.fst).Perm _
    simp only [admittedTrace, List.append_nil]
    by_cases hne : w.erSystem.patientQueue = []
    · rw [treatNextInLine_nil w t hne]
    · rw [treatNextInLine_cons w t hne]
      simp only [List.map_append, List.map_cons, List.map_nil]
      have hp := pqPop_perm CompareERPatients priorityKey compare_iff_key _ hh hne
      refine List.Perm.trans ?_ (hp.symm.append_right _)
      rw [List.cons_append]
      refine List.Perm.trans ?_ (List.perm_middle)
      exact List.Perm.append_left _ (List.perm_append_singleton _ _)
  | showQueueStatus =>
    show ((showQueueStatus w).erSystem.patientQueue ++
      (showQueueStatus w).erSystem.treatedPatients.map Prod.fst).Perm _
    rw [showQueueStatus_erSystem]; simp [admittedTrace]
  | showTreatedLog =>
    show ((showTreatedLog w).erSystem.patientQueue ++
      (showTreatedLog w).erSystem.treatedPatients.map Prod.fst).Perm _
    rw [showTreatedLog_erSystem]; simp [admittedTrace]
  | isQueueEmpty => simp [step, admittedTrace]

theorem admittedTrace_cons (w : World) (op : Op) (ops : List Op) :
    admittedTrace w (op :: ops) = admittedTrace w [op] ++ admittedTrace (step w op) ops := by
  cases op <;> simp [admittedTrace]

theorem run_patients_perm : ∀ (ops : List Op) (w : World),
    IsHeap CompareERPatients w.erSystem.patientQueue →
    ((run w ops).erSystem.patientQueue ++ (run w ops).erSystem.treatedPatients.map Prod.fst).Perm
      ((w.erSystem.patientQueue ++ w.erSystem.treatedPatients.map Prod.fst) ++
        admittedTrace w ops)
  | [], w, _ => by simp [run, admittedTrace]
  | op :: ops, w, hh => by
    show ((run (step w op) ops).erSystem.patientQueue ++ _).Perm _
    refine (run_patients_perm ops (step w op) (step_isHeap w op hh)).trans ?_
    rw [admittedTrace_cons, ← List.append_assoc]
    exact (step_patients_perm w op hh).append_right _

theorem table_key_severity_range (injury : String) (v : Int)
    (hkey : mapFind injuryList injury = some v) : 1 ≤ v ∧ v ≤ 5 :=
  injuryList_severity_range (injury, v) (mapFind_mem injuryList injury v hkey)

/-- C12: in every reachable state, admitting a patient whose injury is a key of the table
inserts exactly one patient with the given name, injury and arrival time and
the table's severity for the injury: the queue after is that patient plus the
queue before, so a patient with identical fields already waiting is kept next
to it; the patient is reported with this severity, and at every later point
the stored patient, severity included, is waiting or in the log. -/
theorem admit_known_injury_inserts_patient (ops later : List Op) (name injury : String)
    (checkIn v : Int) (hkey : mapFind (run initWorld ops).injuryList injury = some v) :
    (admitNewPatient (run initWorld ops) name injury checkIn).erSystem.patientQueue.Perm
      (⟨name, injury, v, checkIn⟩ :: (run initWorld ops).erSystem.patientQueue) ∧
    List.count (⟨name, injury, v, checkIn⟩ : ERPatient)
        (admitNewPatient (run initWorld ops) name injury checkIn).erSystem.patientQueue =
      List.count (⟨name, injury, v, checkIn⟩ : ERPatient)
        (run initWorld ops).erSystem.patientQueue + 1 ∧
    (admitNewPatient (run initWorld ops) name injury checkIn).cout =
      (run initWorld ops).cout ++ [Line.addedPatient ⟨name, injury, v, checkIn⟩] ∧
    List.count (⟨name, injury, v, checkIn⟩ : ERPatient)
        ((run (admitNewPatient (run initWorld ops) name injury checkIn) later).erSystem.patientQueue
          ++ (run (admitNewPatient (run initWorld ops) name injury checkIn)
            later).erSystem.treatedPatients.map Prod.fst) ≥
      List.count (⟨name, injury, v, checkIn⟩ : ERPatient)
        ((run initWorld ops).erSystem.patientQueue ++
          (run initWorld ops).erSystem.treatedPatients.map Prod.fst) + 1 := by
  have hs := reachable_sorted ops
  have hh := reachable_isHeap ops
  obtain ⟨_, hq⟩ := admitNewPatient_of_key (run initWorld ops) name injury checkIn v hs hkey
  have hperm : (admitNewPatient (run initWorld ops) name injury checkIn).erSystem.patientQueue.Perm
      (⟨name, injury, v, checkIn⟩ :: (run initWorld ops).erSystem.patientQueue) := by
    rw [hq]; exact pqPush_perm CompareERPatients _ _
  refine ⟨hperm, ?_, ?_, ?_⟩
  · rw [hperm.count_eq, List.count_cons_self]
  · show (run initWorld ops).cout ++ [Line.addedPatient
      ⟨name, injury, (mapSubscript (run initWorld ops).injuryList injury).2, checkIn⟩] = _
    rw [mapSubscript_of_key _ _ _ hs hkey]
  · have hlater := run_patients_perm later
      (admitNewPatient (run initWorld ops) name injury checkIn)
      (step_isHeap (run initWorld ops) (Op.admitNewPatient name injury checkIn) hh)
    rw [hlater.count_eq, List.count_append, List.count_append, admitNewPatient_log,
      hperm.count_eq, List.count_cons_self, List.count_append]
    omega

/-- Witness for C12: admitting a stroke patient into the empty handler, later treated. -/
theorem admit_known_injury_inserts_patient_witness :
    mapFind (run initWorld []).injuryList "Stroke" = some 1 ∧
    List.count (⟨"A", "Stroke", 1, 10⟩ : ERPatient)
        ((run (admitNewPatient (run initWorld []) "A" "Stroke" 10)
          [Op.treatNextInLine 50]).erSystem.patientQueue
          ++ (run (admitNewPatient (run initWorld []) "A" "Stroke" 10)
            [Op.treatNextInLine 50]).erSystem.treatedPatients.map Prod.fst) ≥
      List.count (⟨"A", "Stroke", 1, 10⟩ : ERPatient)
        ((run initWorld []).erSystem.patientQueue ++
          (run initWorld []).erSystem.treatedPatients.map Prod.fst) + 1 :=
  ⟨by decide,
    (admit_known_injury_inserts_patient [] [Op.treatNextInLine 50] "A" "Stroke" 10 1
      (by decide)).2.2.2⟩

/-- Severities of the table as initialised: each of its entries lies between 1 and 5; hence
in every reachable state a patient admitted with an injury that is one of
these keys is stored with that severity, which lies between 1 and 5, and so
does the severity of every waiting patient whose injury is one of these keys.
Names that an admission has added to the table at run time are not covered. -/
theorem table_severities_between_one_and_five (ops : List Op) (name injury : String)
    (checkIn v : Int) (hkey : mapFind injuryList injury = some v) :
    (∀ kv ∈ injuryList, 1 ≤ kv.2 ∧ kv.2 ≤ 5) ∧
    (admitNewPatient (run initWorld ops) name injury checkIn).erSystem.patientQueue.Perm
      (⟨name, injury, v, checkIn⟩ :: (run initWorld ops).erSystem.patientQueue) ∧
    (1 ≤ v ∧ v ≤ 5) ∧
    ∀ q ∈ (run initWorld ops).erSystem.patientQueue,
      mapFind injuryList q.injuryType = none ∨
        (1 ≤ q.conditionSeverity ∧ q.conditionSeverity ≤ 5) := by
  refine ⟨injuryList_severity_range, ?_, table_key_severity_range injury v hkey, ?_⟩
  · rw [admitNewPatient_queue, reachable_admitted_severity, hkey]
    exact pqPush_perm CompareERPatients _ _
  · intro q hq
    cases hf : mapFind injuryList q.injuryType with
    | none => exact Or.inl rfl
    | some u =>
      right
      have := reachable_queue_severity ops q hq
      rw [hf] at this
      rw [this]
      exact table_key_severity_range _ u hf

/-- An instance of the preceding statement: admitting a broken bone after an admission with
an unknown injury. -/
theorem table_severities_between_one_and_five_witness :
    mapFind injuryList "Broken Bone" = some 3 ∧
    (admitNewPatient (run initWorld [Op.admitNewPatient "X" "Not A Real Injury" 0]) "B"
      "Broken Bone" 7).erSystem.patientQueue.Perm
      (⟨"B", "Broken Bone", 3, 7⟩ ::
        (run initWorld [Op.admitNewPatient "X" "Not A Real Injury" 0]).erSystem.patientQueue) ∧
    (1 ≤ (3 : Int) ∧ (3 : Int) ≤ 5) :=
  ⟨by decide,
    (table_severities_between_one_and_five [Op.admitNewPatient "X" "Not A Real Injury" 0]
      "B" "Broken Bone" 7 3 (by decide)).2.1,
    (table_severities_between_one_and_five [Op.admitNewPatient "X" "Not A Real Injury" 0]
      "B" "Broken Bone" 7 3 (by decide)).2.2.1⟩

/-- C13, the defect: the table does not keep its severities between 1 and 5.  "Bogus" is
not a key of the table at the start, where every severity lies between 1 and 5;
after `admitNewPatient("X", "Bogus", 0)` it is a key of `injuryList` with
severity 0, so not every severity in the table lies between 1 and 5; a second
admission `admitNewPatient("Y", "Bogus", 1)`, whose injury is then a key of the
table, stores a patient with severity 0. -/
theorem table_gains_severity_zero_entry :
    mapFind initWorld.injuryList "Bogus" = none ∧
    (∀ kv ∈ initWorld.injuryList, 1 ≤ kv.2 ∧ kv.2 ≤ 5) ∧
    mapFind (admitNewPatient initWorld "X" "Bogus" 0).injuryList "Bogus" = some 0 ∧
    (¬ ∀ kv ∈ (admitNewPatient initWorld "X" "Bogus" 0).injuryList,
      1 ≤ kv.2 ∧ kv.2 ≤ 5) ∧
    (⟨"Y", "Bogus", 0, 1⟩ : ERPatient) ∈
      (admitNewPatient (admitNewPatient initWorld "X" "Bogus" 0) "Y" "Bogus"
        1).erSystem.patientQueue ∧
    ¬ ∀ q ∈ (admitNewPatient (admitNewPatient initWorld "X" "Bogus" 0) "Y" "Bogus"
        1).erSystem.patientQueue,
      1 ≤ q.conditionSeverity ∧ q.conditionSeverity ≤ 5 := by
  decide

/-- C14: in every reachable state with a non-empty queue, `treatNextInLine` moves exactly one
patient from the queue to the log: the record appended is a patient held before
the call, unchanged, paired with the clock reading of the call; the line
printed shows that patient; the queue after, as a multiset, is the queue
before minus that one patient; the table is untouched. -/
theorem treat_transfers_one_patient (ops : List Op) (treatmentTime : Int)
    (hne : (run initWorld ops).erSystem.patientQueue ≠ []) :
    ∃ p, p ∈ (run initWorld ops).erSystem.patientQueue ∧
      (treatNextInLine (run initWorld ops) treatmentTime).erSystem.treatedPatients =
        (run initWorld ops).erSystem.treatedPatients ++ [(p, treatmentTime)] ∧
      (treatNextInLine (run initWorld ops) treatmentTime).cout =
        (run initWorld ops).cout ++ [Line.treatingPatient p] ∧
      ((treatNextInLine (run initWorld ops) treatmentTime).erSystem.patientQueue :
          Multiset ERPatient) =
        ((run initWorld ops).erSystem.patientQueue : Multiset ERPatient).erase p ∧
      pqSize (treatNextInLine (run initWorld ops) treatmentTime).erSystem.patientQueue + 1 =
        pqSize (run initWorld ops).erSystem.patientQueue ∧
      (treatNextInLine (run initWorld ops) treatmentTime).injuryList =
        (run initWorld ops).injuryList := by
  have hh := reachable_isHeap ops
  have hperm := pqPop_perm CompareERPatients priorityKey compare_iff_key _ hh hne
  refine ⟨deref (run initWorld ops).erSystem.patientQueue 0,
    deref_mem _ 0 (List.length_pos.2 hne), ?_, ?_, ?_, ?_, treatNextInLine_injuryList _ _⟩
  · rw [treatNextInLine_cons _ _ hne]
  · rw [treatNextInLine_cons _ _ hne]
  · rw [treatNextInLine_cons _ _ hne, Multiset.coe_erase, Multiset.coe_eq_coe]
    have := hperm.erase (deref (run initWorld ops).erSystem.patientQueue 0)
    rw [List.erase_cons_head] at this
    exact this.symm
  · rw [treatNextInLine_cons _ _ hne]
    unfold pqSize
    simp only []
    rw [pqPop_length CompareERPatients priorityKey compare_iff_key _ hh]
    have := List.length_pos.2 hne
    omega

/-- Witness for C14: treating after the admissions of A, B and C. -/
theorem treat_transfers_one_patient_witness :
    (run initWorld (arrivalsABC.map admissionOp)).erSystem.patientQueue ≠ [] ∧
    ∃ p, p ∈ (run initWorld (arrivalsABC.map admissionOp)).erSystem.patientQueue ∧
      (treatNextInLine (run initWorld (arrivalsABC.map admissionOp)) 30).erSystem.treatedPatients
        = (run initWorld (arrivalsABC.map admissionOp)).erSystem.treatedPatients ++ [(p, 30)] ∧
      (treatNextInLine (run initWorld (arrivalsABC.map admissionOp)) 30).cout =
        (run initWorld (arrivalsABC.map admissionOp)).cout ++ [Line.treatingPatient p] ∧
      ((treatNextInLine (run initWorld (arrivalsABC.map admissionOp)) 30).erSystem.patientQueue :
          Multiset ERPatient) =
        ((run initWorld (arrivalsABC.map admissionOp)).erSystem.patientQueue :
          Multiset ERPatient).erase p ∧
      pqSize (treatNextInLine (run initWorld (arrivalsABC.map admissionOp))
          30).erSystem.patientQueue + 1 =
        pqSize (run initWorld (arrivalsABC.map admissionOp)).erSystem.patientQueue ∧
      (treatNextInLine (run initWorld (arrivalsABC.map admissionOp)) 30).injuryList =
        (run initWorld (arrivalsABC.map admissionOp)).injuryList :=
  ⟨by decide, treat_transfers_one_patient (arrivalsABC.map admissionOp) 30 (by decide)⟩

/-- C15: in every reachable state, admitting a patient whose injury is not a key of the table
as initialised does not fail: the patient is enqueued with severity 0 (the
queue is that patient plus the queue before) and reported as added; it
compares ahead of every waiting patient whose injury is a key of the table,
whatever the arrival times; and when the queue is then treated until empty,
every patient treated before it has an injury that is not a key either. -/
theorem admit_unknown_injury_gets_severity_zero (ops : List Op) (name injury : String)
    (checkIn : Int) (clock : Nat → Int) (hkey : mapFind injuryList injury = none) :
    (admitNewPatient (run initWorld ops) name injury checkIn).erSystem.patientQueue.Perm
      (⟨name, injury, 0, checkIn⟩ :: (run initWorld ops).erSystem.patientQueue) ∧
    pqSize (admitNewPatient (run initWorld ops) name injury checkIn).erSystem.patientQueue =
      pqSize (run initWorld ops).erSystem.patientQueue + 1 ∧
    (admitNewPatient (run initWorld ops) name injury checkIn).cout =
      (run initWorld ops).cout ++ [Line.addedPatient ⟨name, injury, 0, checkIn⟩] ∧
    (∀ q ∈ (run initWorld ops).erSystem.patientQueue,
      mapFind injuryList q.injuryType = none ∨
        CompareERPatients q ⟨name, injury, 0, checkIn⟩ = true) ∧
    ∃ l1 l2,
      (treatUntilEmpty
        (pqSize (admitNewPatient (run initWorld ops) name injury checkIn).erSystem.patientQueue)
        (admitNewPatient (run initWorld ops) name injury checkIn)
        clock).erSystem.treatedPatients.map Prod.fst =
        (run initWorld ops).erSystem.treatedPatients.map Prod.fst ++
          (l1 ++ ⟨name, injury, 0, checkIn⟩ :: l2) ∧
      ∀ q ∈ l1, mapFind injuryList q.injuryType = none := by
  have hsev : (mapSubscript (run initWorld ops).injuryList injury).2 = 0 := by
    rw [reachable_admitted_severity, hkey]; rfl
  have hperm : (admitNewPatient (run initWorld ops) name injury checkIn).erSystem.patientQueue.Perm
      (⟨name, injury, 0, checkIn⟩ :: (run initWorld ops).erSystem.patientQueue) := by
    rw [admitNewPatient_queue, hsev]
    exact pqPush_perm CompareERPatients _ _
  have hkeyed : ∀ q ∈ (run initWorld ops).erSystem.patientQueue,
      mapFind injuryList q.injuryType = none ∨ 1 ≤ q.conditionSeverity := by
    intro q hq
    cases hf : mapFind injuryList q.injuryType with
    | none => exact Or.inl rfl
    | some u =>
      right
      have := reachable_queue_severity ops q hq
      rw [hf] at this
      rw [this]
      exact (table_key_severity_range _ u hf).1
  refine ⟨hperm, ?_, ?_, ?_, ?_⟩
  · unfold pqSize
    rw [hperm.length_eq, List.length_cons]
  · show (run initWorld ops).cout ++ [Line.addedPatient
      ⟨name, injury, (mapSubscript (run initWorld ops).injuryList injury).2, checkIn⟩] = _
    rw [hsev]
  · intro q hq
    rcases hkeyed q hq with h0 | h1
    · exact Or.inl h0
    · right
      unfold CompareERPatients
      simp only []
      rw [if_neg (by omega), decide_eq_true_eq]
      omega
  · have hh : IsHeap CompareERPatients
        (admitNewPatient (run initWorld ops) name injury checkIn).erSystem.patientQueue :=
      step_isHeap (run initWorld ops) (Op.admitNewPatient name injury checkIn)
        (reachable_isHeap ops)
    obtain ⟨hdperm, hsorted⟩ := drainTempQueue_spec
      (pqSize (admitNewPatient (run initWorld ops) name injury checkIn).erSystem.patientQueue)
      _ hh (le_refl _)
    have hmem : (⟨name, injury, 0, checkIn⟩ : ERPatient) ∈ drainTempQueue
        (pqSize (admitNewPatient (run initWorld ops) name injury checkIn).erSystem.patientQueue)
        (admitNewPatient (run initWorld ops) name injury checkIn).erSystem.patientQueue :=
      hdperm.symm.subset (hperm.symm.subset (List.mem_cons_self _ _))
    obtain ⟨l1, l2, hsplit⟩ := List.append_of_mem hmem
    refine ⟨l1, l2, ?_, ?_⟩
    · rw [treatUntilEmpty_log, admitNewPatient_log, hsplit]
    · intro q hq
      rw [hsplit] at hsorted hdperm
      have hbefore : TreatedBefore q ⟨name, injury, 0, checkIn⟩ :=
        (List.pairwise_append.1 hsorted).2.2 q hq _ (List.mem_cons_self _ _)
      have hqmem : q ∈ (⟨name, injury, 0, checkIn⟩ : ERPatient) ::
          (run initWorld ops).erSystem.patientQueue :=
        hperm.subset (hdperm.subset (List.mem_append_left _ hq))
      rcases List.mem_cons.1 hqmem with h1 | h2
      · rw [h1]; exact hkey
      · rcases hkeyed q h2 with h0 | hpos
        · exact h0
        · have := hbefore.1
          simp only [] at this
          omega

/-- Witness for C15: "Not A Real Injury" admitted while A, B and C are waiting. -/
theorem admit_unknown_injury_gets_severity_zero_witness :
    mapFind injuryList "Not A Real Injury" = none ∧
    (admitNewPatient (run initWorld (arrivalsABC.map admissionOp)) "X" "Not A Real Injury"
      99).erSystem.patientQueue.Perm
      (⟨"X", "Not A Real Injury", 0, 99⟩ ::
        (run initWorld (arrivalsABC.map admissionOp)).erSystem.patientQueue) ∧
    (∀ q ∈ (run initWorld (arrivalsABC.map admissionOp)).erSystem.patientQueue,
      mapFind injuryList q.injuryType = none ∨
        CompareERPatients q ⟨"X", "Not A Real Injury", 0, 99⟩ = true) :=
  ⟨by decide,
    (admit_unknown_injury_gets_severity_zero (arrivalsABC.map admissionOp) "X"
      "Not A Real Injury" 99 (fun _ => 100) (by decide)).1,
    (admit_unknown_injury_gets_severity_zero (arrivalsABC.map admissionOp) "X"
      "Not A Real Injury" 99 (fun _ => 100) (by decide)).2.2.2.1⟩

/-! ## The treatment loop of `main` -/

/-- Appending lines other than the empty-queue line of `treatNextInLine` keeps that line
absent from the output. -/
theorem not_mem_append_benign {out extra : List Line}
    (h : Line.queueEmptyNoOneLeft ∉ out) (he : ∀ l ∈ extra, l ≠ Line.queueEmptyNoOneLeft) :
    Line.queueEmptyNoOneLeft ∉ out ++ extra := by
  intro hmem
  rcases List.mem_append.1 hmem with h1 | h2
  · exact h h1
  · exact he _ h2 rfl

theorem readYesNo_benign : ∀ (toks : List Token) (out : List Line),
    Line.queueEmptyNoOneLeft ∉ out → Line.queueEmptyNoOneLeft ∉ (readYesNo toks out).2.1
  | [], out, h => by
    simp only [readYesNo]
    exact not_mem_append_benign h (by simp)
  | Token.chr c :: rest, out, h => by
    simp only [readYesNo]
    split
    · exact not_mem_append_benign h (by simp)
    · exact readYesNo_benign rest _ (not_mem_append_benign h (by simp))
  | Token.line s :: rest, out, h => by
    simp only [readYesNo]
    exact not_mem_append_benign h (by simp)
  | Token.int n :: rest, out, h => by
    simp only [readYesNo]
    exact not_mem_append_benign h (by simp)

theorem readInjuryChoice_benign (size : Nat) : ∀ (toks : List Token) (out : List Line),
    Line.queueEmptyNoOneLeft ∉ out →
    Line.queueEmptyNoOneLeft ∉ (readInjuryChoice size toks out).2.1
  | [], out, h => by
    simp only [readInjuryChoice]
    exact not_mem_append_benign h (by simp)
  | Token.int n :: rest, out, h => by
    simp only [readInjuryChoice]
    split
    · exact not_mem_append_benign h (by simp)
    · split
      · exact not_mem_append_benign h (by simp)
      · exact readInjuryChoice_benign size rest _ (not_mem_append_benign h (by simp))
  | Token.line s :: rest, out, h => by
    simp only [readInjuryChoice]
    exact not_mem_append_benign h (by simp)
  | Token.chr c :: rest, out, h => by
    simp only [readInjuryChoice]
    exact not_mem_append_benign h (by simp)

theorem injuryMenu_benign (m : StdMap) :
    ∀ l ∈ injuryMenu m, l ≠ Line.queueEmptyNoOneLeft := by
  intro l hl
  unfold injuryMenu at hl
  obtain ⟨e, _, rfl⟩ := List.mem_map.1 hl
  simp

theorem promptForNewPatients_spec (clock : Nat → Int) (s : MainState)
    (hb : Line.queueEmptyNoOneLeft ∉ s.world.cout) (hq : s.world.erSystem.patientQueue ≠ []) :
    Line.queueEmptyNoOneLeft ∉ (promptForNewPatients clock s).1.world.cout ∧
    (promptForNewPatients clock s).1.world.erSystem.patientQueue ≠ [] := by
  have h1 := readYesNo_benign s.cin s.world.cout hb
  unfold promptForNewPatients
  simp only []
  split
  · exact ⟨h1, hq⟩
  · split
    · split
      · rename_i name rest _
        have h2 := readInjuryChoice_benign s.world.injuryList.length rest
          ((readYesNo s.cin s.world.cout).2.1 ++ [Line.askName, Line.menuHeader] ++
            injuryMenu s.world.injuryList)
          (not_mem_append_benign (not_mem_append_benign h1 (by simp))
            (injuryMenu_benign _))
        split
        · exact ⟨h2, hq⟩
        · refine ⟨not_mem_append_benign h2 (by simp), ?_⟩
          intro hnil
          have hlen := congrArg List.length hnil
          simp only [admitNewPatient_queue, pqPush_length] at hlen
          simp at hlen
      · exact ⟨not_mem_append_benign h1 (by simp), hq⟩
    · exact ⟨h1, hq⟩

theorem showQueueStatus_benign (w : World) (hb : Line.queueEmptyNoOneLeft ∉ w.cout) :
    Line.queueEmptyNoOneLeft ∉ (showQueueStatus w).cout := by
  rw [showQueueStatus_cout]
  apply not_mem_append_benign hb
  intro l hl
  split at hl
  · simp at hl; rw [hl]; simp
  · simp only [List.mem_append, List.mem_singleton, List.mem_map] at hl
    rcases hl with (h1 | ⟨p, _, rfl⟩) | h3
    · rw [h1]; simp
    · simp
    · rw [h3]; simp

theorem showTreatedLog_benign (w : World) (hb : Line.queueEmptyNoOneLeft ∉ w.cout) :
    Line.queueEmptyNoOneLeft ∉ (showTreatedLog w).cout := by
  unfold showTreatedLog
  split
  · exact not_mem_append_benign hb (by simp)
  · simp only [List.append_assoc]
    apply not_mem_append_benign hb
    intro l hl heq
    subst heq
    simp at hl

theorem run_admissions_benign : ∀ (ops : List Op) (w : World),
    (∀ op ∈ ops, ∃ name injury checkIn, op = Op.admitNewPatient name injury checkIn) →
    Line.queueEmptyNoOneLeft ∉ w.cout → Line.queueEmptyNoOneLeft ∉ (run w ops).cout
  | [], _, _, hb => hb
  | op :: ops, w, hops, hb => by
    obtain ⟨name, injury, checkIn, rfl⟩ := hops op (List.mem_cons_self _ _)
    apply run_admissions_benign ops _ (fun o ho => hops o (List.mem_cons_of_mem _ ho))
    exact not_mem_append_benign hb (by simp)

theorem mainLoop_benign (clock : Nat → Int) : ∀ (fuel : Nat) (s : MainState),
    Line.queueEmptyNoOneLeft ∉ s.world.cout →
    Line.queueEmptyNoOneLeft ∉ (mainLoop clock fuel s).1.world.cout
  | 0, _, hb => hb
  | fuel + 1, s, hb => by
    simp only [mainLoop]
    split
    · exact hb
    · rename_i hne
      have hq : s.world.erSystem.patientQueue ≠ [] := fun h =>
        hne ((isQueueEmpty_eq_true_iff s.world).2 h)
      obtain ⟨p1, p2⟩ := promptForNewPatients_spec clock s hb hq
      split
      · exact p1
      · rename_i admitted _
        apply mainLoop_benign clock fuel
        simp only []
        cases admitted with
        | true =>
          simp only [if_true]
          have hq2 : (showQueueStatus (promptForNewPatients clock s).1.world).erSystem.patientQueue
              ≠ [] := by rw [showQueueStatus_erSystem]; exact p2
          rw [treatNextInLine_cons _ _ hq2]
          exact not_mem_append_benign (showQueueStatus_benign _ p1) (by simp)
        | false =>
          simp only [Bool.false_eq_true, if_false]
          rw [treatNextInLine_cons _ _ p2]
          exact not_mem_append_benign p1 (by simp)

theorem main_benign (fuel : Nat) (cin : List Token) (clock : Nat → Int) :
    Line.queueEmptyNoOneLeft ∉ (main fuel cin clock).1.world.cout := by
  have h0 : Line.queueEmptyNoOneLeft ∉ (showQueueStatus (run
      { initWorld with cout := [Line.simulationStarting] }
      (seedAdmissions (clock 0)))).cout := by
    apply showQueueStatus_benign
    apply run_admissions_benign
    · intro op hop
      simp only [seedAdmissions, List.mem_cons, List.mem_singleton, List.not_mem_nil,
        or_false] at hop
      rcases hop with h | h | h | h | h <;> exact ⟨_, _, _, h⟩
    · simp
  have h1 := mainLoop_benign clock fuel
    { world := showQueueStatus (run { initWorld with cout := [Line.simulationStarting] }
        (seedAdmissions (clock 0))), cin := cin, tick := 1 } h0
  unfold main
  simp only []
  split
  · exact not_mem_append_benign (showTreatedLog_benign _ h1) (by simp)
  · exact h1

theorem pqTop_eq_none_iff (c : List ERPatient) : pqTop c = none ↔ pqEmpty c = true := by
  cases c <;> simp [pqTop, pqEmpty]

theorem treatNextInLine_cout_length (w : World) (t : Int) :
    (treatNextInLine w t).cout.length = w.cout.length + 1 := by
  by_cases hq : w.erSystem.patientQueue = []
  · rw [treatNextInLine_nil w t hq]; simp
  · rw [treatNextInLine_cons w t hq]; simp

/-- C16: `top` yields no element exactly when `empty` holds, so behind the `empty` guards of
`treatNextInLine` and of the drain loop of `showQueueStatus` it always yields
one: in every state `treatNextInLine` prints exactly one line (the branch for a
missing front element would print none), and an iteration of the drain loop on
a non-empty queue always lists a patient; a reachable queue is listed in full.
In `main`, whatever the input, the clock and the number of loop iterations
run, `treatNextInLine` never takes its empty-queue branch: its "queue is
empty" line is never printed. -/
theorem top_and_pop_only_on_nonempty_queue (w : World) (treatmentTime : Int)
    (c : List ERPatient) (n : Nat) (ops : List Op) (fuel : Nat) (cin : List Token)
    (clock : Nat → Int) :
    (pqTop c = none ↔ pqEmpty c = true) ∧
    (treatNextInLine w treatmentTime).cout.length = w.cout.length + 1 ∧
    (drainTempQueue (n + 1) c = [] ↔ c = []) ∧
    (drainTempQueue (pqSize (run initWorld ops).erSystem.patientQueue)
      (run initWorld ops).erSystem.patientQueue).length =
        pqSize (run initWorld ops).erSystem.patientQueue ∧
    Line.queueEmptyNoOneLeft ∉ (main fuel cin clock).1.world.cout := by
  refine ⟨pqTop_eq_none_iff c, treatNextInLine_cout_length w treatmentTime, ?_, ?_,
    main_benign fuel cin clock⟩
  · constructor
    · intro h
      by_contra hne
      rw [drainTempQueue_cons n c hne] at h
      exact List.cons_ne_nil _ _ h
    · intro h
      rw [h]; exact drainTempQueue_nil _
  · exact (drainTempQueue_spec _ _ (reachable_isHeap ops) (le_refl _)).1.length_eq

/-- A run of `main` in which every prompt is answered with `n`: it returns after five
treatments, in the order Jason Ie, Kian Zarkani, Paarth Soni, Zach Hasan,
Ronin Lee. -/
theorem main_without_new_patients :
    (main 6 [Token.chr 'n', Token.chr 'n', Token.chr 'n', Token.chr 'n', Token.chr 'n']
      (fun n => 1000 + n)).2 = Outcome.finished ∧
    (main 6 [Token.chr 'n', Token.chr 'n', Token.chr 'n', Token.chr 'n', Token.chr 'n']
      (fun n => 1000 + n)).1.world.erSystem.treatedPatients.map (fun r => (r.1.fullName, r.2)) =
      [("Jason Ie", 1001), ("Kian Zarkani", 1002), ("Paarth Soni", 1003),
        ("Zach Hasan", 1004), ("Ronin Lee", 1005)] := by
  decide

/-! ## The seeded run -/

theorem eq_of_perm_of_strictly_sorted {R : ERPatient → ERPatient → Prop} :
    ∀ (T L : List ERPatient), L.Perm T → List.Pairwise R L →
    List.Pairwise (fun a b => ¬ R b a) T → L = T
  | [], L, hperm, _, _ => hperm.eq_nil
  | x :: T, L, hperm, hsorted, hstrict => by
    obtain ⟨hx, hT⟩ := List.pairwise_cons.1 hstrict
    cases L with
    | nil => exact absurd hperm.symm.eq_nil (List.cons_ne_nil _ _)
    | cons a L =>
      obtain ⟨ha, hL⟩ := List.pairwise_cons.1 hsorted
      have hax : a = x := by
        by_contra hne
        have haT : a ∈ T := by
          rcases List.mem_cons.1 (hperm.subset (List.mem_cons_self _ _)) with h | h
          · exact absurd h hne
          · exact h
        have hxL : x ∈ L := by
          rcases List.mem_cons.1 (hperm.symm.subset (List.mem_cons_self _ _)) with h | h
          · exact absurd h.symm hne
          · exact h
        exact hx a haT (ha x hxL)
      subst hax
      rw [eq_of_perm_of_strictly_sorted T L hperm.cons_inv hL hT]

theorem run_treats : ∀ (ts : List Int) (w : World),
    (run w (ts.map Op.treatNextInLine)).erSystem.treatedPatients =
      w.erSystem.treatedPatients ++
        List.zip (drainTempQueue ts.length w.erSystem.patientQueue) ts
  | [], w => by simp [run, drainTempQueue]
  | t :: ts, w => by
    show (run (treatNextInLine w t) (ts.map Op.treatNextInLine)).erSystem.treatedPatients = _
    rw [run_treats ts]
    by_cases hne : w.erSystem.patientQueue = []
    · rw [treatNextInLine_nil w t hne, hne, drainTempQueue_nil, drainTempQueue_nil]
      simp
    · rw [treatNextInLine_cons w t hne, List.length_cons, drainTempQueue_cons _ _ hne]
      simp

theorem run_treats_queue : ∀ (ts : List Int) (w : World),
    IsHeap CompareERPatients w.erSystem.patientQueue →
    w.erSystem.patientQueue.length ≤ ts.length →
    (run w (ts.map Op.treatNextInLine)).erSystem.patientQueue = []
  | [], w, _, hlen => List.length_eq_zero.1 (by simpa using hlen)
  | t :: ts, w, hh, hlen => by
    show (run (treatNextInLine w t) (ts.map Op.treatNextInLine)).erSystem.patientQueue = []
    apply run_treats_queue ts
    · exact step_isHeap w (Op.treatNextInLine t) hh
    · by_cases hne : w.erSystem.patientQueue = []
      · rw [treatNextInLine_nil w t hne, hne]; simp
      · rw [treatNextInLine_cons w t hne]
        simp only []
        rw [pqPop_length CompareERPatients priorityKey compare_iff_key _ hh]
        simp only [List.length_cons] at hlen
        omega

theorem seedAdmissions_trace (now : Int) :
    admittedTrace initWorld (seedAdmissions now) =
      [⟨"Paarth Soni", "Broken Bone", 3, now - 10⟩,
        ⟨"Zach Hasan", "Sprained Ankle", 4, now - 20⟩,
        ⟨"Kian Zarkani", "Heart Attack", 1, now - 5⟩,
        ⟨"Jason Ie", "Severe Burn", 1, now - 15⟩,
        ⟨"Ronin Lee", "Mild Concussion", 4, now - 2⟩] := by
  with_unfolding_all rfl

theorem seedAdmissions_state (now : Int) :
    (run initWorld (seedAdmissions now)).erSystem.treatedPatients = [] ∧
    (run initWorld (seedAdmissions now)).erSystem.patientQueue.Perm
      [⟨"Jason Ie", "Severe Burn", 1, now - 15⟩,
        ⟨"Kian Zarkani", "Heart Attack", 1, now - 5⟩,
        ⟨"Paarth Soni", "Broken Bone", 3, now - 10⟩,
        ⟨"Zach Hasan", "Sprained Ankle", 4, now - 20⟩,
        ⟨"Ronin Lee", "Mild Concussion", 4, now - 2⟩] := by
  have hlog : (run initWorld (seedAdmissions now)).erSystem.treatedPatients = [] :=
    run_arrivals_log [("Paarth Soni", "Broken Bone", now - 10),
      ("Zach Hasan", "Sprained Ankle", now - 20), ("Kian Zarkani", "Heart Attack", now - 5),
      ("Jason Ie", "Severe Burn", now - 15), ("Ronin Lee", "Mild Concussion", now - 2)] initWorld
  refine ⟨hlog, ?_⟩
  have hp := run_patients_perm (seedAdmissions now) initWorld (isHeap_nil _)
  rw [hlog, seedAdmissions_trace] at hp
  simp only [List.map_nil, List.append_nil, initWorld, List.nil_append] at hp
  refine hp.trans ?_
  refine (@List.perm_middle ERPatient _ [_, _, _] [_]).trans (List.Perm.cons _ ?_)
  exact @List.perm_middle ERPatient _ [_, _] [_]

/-- C17: for every start time `now`, after the five seeded admissions of `main` and no other
admission, five `treatNextInLine` calls (with any clock readings) empty the
queue and leave the log in the order Jason Ie, Kian Zarkani, Paarth Soni,
Zach Hasan, Ronin Lee, with severities 1, 1, 3, 4, 4; the five seeded injury
names are keys of the table. -/
theorem seeded_patients_treated_in_order (now t1 t2 t3 t4 t5 : Int) :
    ((seedAdmissions now).map fun op =>
      match op with
      | Op.admitNewPatient _ injury _ => mapFind injuryList injury
      | _ => none) = [some 3, some 4, some 1, some 1, some 4] ∧
    (run initWorld (seedAdmissions now ++
      [Op.treatNextInLine t1, Op.treatNextInLine t2, Op.treatNextInLine t3,
        Op.treatNextInLine t4, Op.treatNextInLine t5])).erSystem.patientQueue = [] ∧
    (run initWorld (seedAdmissions now ++
      [Op.treatNextInLine t1, Op.treatNextInLine t2, Op.treatNextInLine t3,
        Op.treatNextInLine t4, Op.treatNextInLine t5])).erSystem.treatedPatients =
      [(⟨"Jason Ie", "Severe Burn", 1, now - 15⟩, t1),
        (⟨"Kian Zarkani", "Heart Attack", 1, now - 5⟩, t2),
        (⟨"Paarth Soni", "Broken Bone", 3, now - 10⟩, t3),
        (⟨"Zach Hasan", "Sprained Ankle", 4, now - 20⟩, t4),
        (⟨"Ronin Lee", "Mild Concussion", 4, now - 2⟩, t5)] := by
  obtain ⟨hlog, hperm⟩ := seedAdmissions_state now
  have hh := reachable_isHeap (seedAdmissions now)
  have hlen : (run initWorld (seedAdmissions now)).erSystem.patientQueue.length = 5 := by
    rw [hperm.length_eq]; rfl
  obtain ⟨hdperm, hsorted⟩ := drainTempQueue_spec 5
    (run initWorld (seedAdmissions now)).erSystem.patientQueue hh (by omega)
  have hdrain := eq_of_perm_of_strictly_sorted _ _ (hdperm.trans hperm) hsorted (by
    simp only [List.pairwise_cons, List.mem_cons, List.mem_singleton, List.not_mem_nil,
      forall_eq_or_imp, forall_eq, TreatedBefore, List.Pairwise.nil]
    simp only [IsEmpty.forall_iff, and_true, implies_true]
    refine ⟨⟨?_, ?_, ?_, ?_⟩, ⟨?_, ?_, ?_⟩, ⟨?_, ?_⟩, ?_⟩ <;>
      (rintro ⟨h1, h2⟩; first | omega | exact absurd (h2 trivial) (by omega)))
  have hts : [Op.treatNextInLine t1, Op.treatNextInLine t2, Op.treatNextInLine t3,
      Op.treatNextInLine t4, Op.treatNextInLine t5] =
        [t1, t2, t3, t4, t5].map Op.treatNextInLine := rfl
  have hfive : [t1, t2, t3, t4, t5].length = 5 := rfl
  refine ⟨by with_unfolding_all rfl, ?_, ?_⟩
  · rw [run_append, hts]
    exact run_treats_queue _ _ hh (by rw [hlen]; rfl)
  · rw [run_append, hts, run_treats, hlog, hfive, hdrain]
    rfl

/-! ## `main` returns on every input that answers its prompts -/

theorem readYesNo_consumes : ∀ (toks : List Token) (out : List Line),
    (readYesNo toks out).2.2 ≠ none → (readYesNo toks out).1.length < toks.length
  | [], out, h => by simp [readYesNo] at h
  | Token.chr c :: rest, out, h => by
    simp only [readYesNo] at h ⊢
    split
    · simp
    · rename_i hc
      rw [if_neg hc] at h
      have := readYesNo_consumes rest _ h
      simp only [List.length_cons]
      omega
  | Token.line s :: rest, out, h => by simp [readYesNo] at h
  | Token.int n :: rest, out, h => by simp [readYesNo] at h

theorem readInjuryChoice_consumes (size : Nat) : ∀ (toks : List Token) (out : List Line),
    (readInjuryChoice size toks out).1.length ≤ toks.length
  | [], out => by simp [readInjuryChoice]
  | Token.int n :: rest, out => by
    simp only [readInjuryChoice]
    split
    · simp
    · split
      · simp
      · have := readInjuryChoice_consumes size rest
          (out ++ [Line.askInjuryNumber, Line.invalidInjuryNumber size])
        simp only [List.length_cons]
        omega
  | Token.line s :: rest, out => by simp [readInjuryChoice]
  | Token.chr c :: rest, out => by simp [readInjuryChoice]

theorem promptForNewPatients_progress_aux (clock : Nat → Int) (s : MainState)
    (hh : IsHeap CompareERPatients s.world.erSystem.patientQueue) (admitted : Bool)
    (r : MainState × Option Bool) (hdef : r = promptForNewPatients clock s)
    (hr : r.2 = some admitted) :
    IsHeap CompareERPatients r.1.world.erSystem.patientQueue ∧
    r.1.cin.length < s.cin.length ∧
    (admitted = true → r.1.cin.length + 1 < s.cin.length ∧
      r.1.world.erSystem.patientQueue.length = s.world.erSystem.patientQueue.length + 1) ∧
    (admitted = false → r.1.world.erSystem.patientQueue.length =
      s.world.erSystem.patientQueue.length) := by
  unfold promptForNewPatients at hdef
  simp only [] at hdef
  cases h1 : (readYesNo s.cin s.world.cout).2.2 with
  | none =>
    simp only [h1] at hdef
    subst hdef
    simp at hr
  | some choice =>
    have hc1 := readYesNo_consumes s.cin s.world.cout (by rw [h1]; simp)
    simp only [h1] at hdef
    by_cases hy : choice.toLower = 'y'
    · rw [if_pos hy] at hdef
      cases h2 : (readYesNo s.cin s.world.cout).1 with
      | nil =>
        simp only [h2] at hdef
        subst hdef
        simp at hr
      | cons tok rest =>
        cases tok with
        | chr c =>
          simp only [h2] at hdef
          subst hdef
          simp at hr
        | int n =>
          simp only [h2] at hdef
          subst hdef
          simp at hr
        | line name =>
          simp only [h2] at hdef
          rw [h2] at hc1
          simp only [List.length_cons] at hc1
          have hc2 := readInjuryChoice_consumes s.world.injuryList.length rest
            ((readYesNo s.cin s.world.cout).2.1 ++ [Line.askName, Line.menuHeader] ++
              injuryMenu s.world.injuryList)
          cases h3 : (readInjuryChoice s.world.injuryList.length rest
            ((readYesNo s.cin s.world.cout).2.1 ++ [Line.askName, Line.menuHeader] ++
              injuryMenu s.world.injuryList)).2.2 with
          | none =>
            simp only [h3] at hdef
            subst hdef
            simp at hr
          | some injuryChoice =>
            simp only [h3] at hdef
            subst hdef
            simp only [Option.some.injEq] at hr
            refine ⟨pqPush_isHeap CompareERPatients priorityKey compare_iff_key _ _ hh,
              by simp only []; omega, fun _ => ⟨by simp only []; omega, ?_⟩, ?_⟩
            · simp only [admitNewPatient_queue, pqPush_length]
            · intro hfalse
              rw [← hr] at hfalse
              exact absurd hfalse (by decide)
    · rw [if_neg hy] at hdef
      subst hdef
      simp only [Option.some.injEq] at hr
      refine ⟨hh, hc1, ?_, fun _ => rfl⟩
      intro htrue
      rw [← hr] at htrue
      exact absurd htrue (by decide)

theorem promptForNewPatients_progress (clock : Nat → Int) (s : MainState)
    (hh : IsHeap CompareERPatients s.world.erSystem.patientQueue) (admitted : Bool)
    (hr : (promptForNewPatients clock s).2 = some admitted) :
    IsHeap CompareERPatients (promptForNewPatients clock s).1.world.erSystem.patientQueue ∧
    (promptForNewPatients clock s).1.cin.length < s.cin.length ∧
    (admitted = true → (promptForNewPatients clock s).1.cin.length + 1 < s.cin.length ∧
      (promptForNewPatients clock s).1.world.erSystem.patientQueue.length =
        s.world.erSystem.patientQueue.length + 1) ∧
    (admitted = false → (promptForNewPatients clock s).1.world.erSystem.patientQueue.length =
      s.world.erSystem.patientQueue.length) :=
  promptForNewPatients_progress_aux clock s hh admitted _ rfl hr

theorem mainLoop_returns (clock : Nat → Int) : ∀ (fuel : Nat) (s : MainState),
    IsHeap CompareERPatients s.world.erSystem.patientQueue →
    s.world.erSystem.patientQueue.length + s.cin.length < fuel →
    (mainLoop clock fuel s).2 ≠ Outcome.running
  | 0, _, _, hlt => by omega
  | fuel + 1, s, hh, hlt => by
    simp only [mainLoop]
    split
    · simp
    · rename_i hne
      have hq : s.world.erSystem.patientQueue ≠ [] := fun h =>
        hne ((isQueueEmpty_eq_true_iff s.world).2 h)
      have hpos := List.length_pos.2 hq
      split
      · simp
      · rename_i admitted hr
        obtain ⟨p1, p2, p4, p5⟩ := promptForNewPatients_progress clock s hh admitted hr
        apply mainLoop_returns clock fuel
        · simp only []
          cases admitted with
          | true =>
            simp only [if_true]
            exact step_isHeap _ (Op.treatNextInLine _) (by
              rw [showQueueStatus_erSystem]; exact p1)
          | false =>
            simp only [Bool.false_eq_true, if_false]
            exact step_isHeap _ (Op.treatNextInLine _) p1
        · simp only []
          cases admitted with
          | true =>
            simp only [if_true]
            obtain ⟨h4, h4q⟩ := p4 rfl
            have hq2 : (showQueueStatus (promptForNewPatients clock s).1.world
                ).erSystem.patientQueue = (promptForNewPatients clock s
                ).1.world.erSystem.patientQueue := by rw [showQueueStatus_erSystem]
            have hne2 : (showQueueStatus (promptForNewPatients clock s).1.world
                ).erSystem.patientQueue ≠ [] := by
              rw [hq2]; intro h; rw [h] at h4q; simp at h4q
            rw [treatNextInLine_cons _ _ hne2]
            simp only []
            rw [pqPop_length CompareERPatients priorityKey compare_iff_key _
              (by rw [hq2]; exact p1), hq2]
            omega
          | false =>
            simp only [Bool.false_eq_true, if_false]
            have h5 := p5 rfl
            have hq2 : (promptForNewPatients clock s).1.world.erSystem.patientQueue ≠ [] := by
              intro h; rw [h] at h5; simp at h5; omega
            rw [treatNextInLine_cons _ _ hq2]
            simp only []
            rw [pqPop_length CompareERPatients priorityKey compare_iff_key _ p1]
            omega

theorem seedAdmissions_eq_map (now : Int) :
    seedAdmissions now =
      [("Paarth Soni", "Broken Bone", now - 10), ("Zach Hasan", "Sprained Ankle", now - 20),
        ("Kian Zarkani", "Heart Attack", now - 5), ("Jason Ie", "Severe Burn", now - 15),
        ("Ronin Lee", "Mild Concussion", now - 2)].map
          fun a => Op.admitNewPatient a.1 a.2.1 a.2.2 := rfl

theorem main_outcome (fuel : Nat) (cin : List Token) (clock : Nat → Int) :
    (main fuel cin clock).2 = (mainLoop clock fuel
      { world := showQueueStatus (run { initWorld with cout := [Line.simulationStarting] }
          (seedAdmissions (clock 0))), cin := cin, tick := 1 }).2 := by
  unfold main
  simp only []
  split
  · rename_i h; exact h.symm
  · rfl

theorem mainLoop_returns_of_length (clock : Nat → Int) (fuel : Nat) (w : World)
    (cin : List Token) (tick : Nat) (hh : IsHeap CompareERPatients w.erSystem.patientQueue)
    (hlen : w.erSystem.patientQueue.length = 5) (hfuel : cin.length + 5 < fuel) :
    (mainLoop clock fuel { world := w, cin := cin, tick := tick }).2 ≠ Outcome.running := by
  apply mainLoop_returns clock fuel _ hh
  show w.erSystem.patientQueue.length + cin.length < fuel
  omega

/-- With more iterations allowed than the input has values plus the five seeded patients,
`main` does not stop for lack of iterations: it returns, or it waits in a
prompt whose input ran out. -/
theorem main_returns (fuel : Nat) (cin : List Token) (clock : Nat → Int)
    (hfuel : cin.length + 5 < fuel) : (main fuel cin clock).2 ≠ Outcome.running := by
  rw [main_outcome]
  apply mainLoop_returns_of_length clock fuel _ cin 1 _ _ hfuel
  · rw [showQueueStatus_erSystem]
    exact run_isHeap _ _ (isHeap_nil _)
  · rw [showQueueStatus_erSystem, seedAdmissions_eq_map, run_arrivals_size]
    rfl

end ERQueue
